import Mathlib

/-!
Verification development for the backend execution layer of a lazy
tensor-computation engine (two backends: an optimized CPU backend built on
platform vector routines, and a no-accelerator backend).

The data model (dtype / shape / strides / layout flags / reference-counted
storage) and the per-operation dispatch logic are embedded shallowly from
`mlx/backend/accelerate/primitives.cpp` and `mlx/backend/no_metal/primitives.cpp`.
Supporting code that those files call but which lives outside the two source
files (the generic unary/binary engines, the donation helper
`set_unary_output_data`, dtype predicates, the platform vector routines) is
modelled from the specification and from the routines' documented conventions;
every such definition carries a doc comment saying so.

Floating-point values are modelled as exact rationals: the claims under test
concern dispatch conditions, storage/donation behavior, operand ordering and
exactly-representable test vectors, none of which depend on rounding.
Transcendental scalar functions (arc-cosine, exponential, power, ...) are kept
abstract: the evaluators are parameterized by the scalar function, which is
used consistently for both the platform routine and the generic fallback.
-/

set_option maxHeartbeats 1000000

namespace MLX

/-- Modelled from the spec: the fixed-width numeric kinds of the data model
(§3): bool, signed and unsigned integers of 8..64 bits, floating kinds and
complex64 (the dtype declarations live outside the two source files). -/
inductive Dtype where
  | bool_ | uint8 | uint16 | uint32 | uint64
  | int8 | int16 | int32 | int64
  | float16 | float32 | float64 | bfloat16 | complex64
deriving DecidableEq, Repr

/-- Modelled from the spec: element size in bytes of each dtype. -/
def Dtype.itemsize : Dtype → Nat
  | .bool_ => 1
  | .uint8 => 1
  | .uint16 => 2
  | .uint32 => 4
  | .uint64 => 8
  | .int8 => 1
  | .int16 => 2
  | .int32 => 4
  | .int64 => 8
  | .float16 => 2
  | .float32 => 4
  | .float64 => 8
  | .bfloat16 => 2
  | .complex64 => 8

/-- Modelled from the spec: `is_unsigned` holds for the unsigned-integer
dtypes (the dtype predicates live outside the two source files). -/
def is_unsigned (d : Dtype) : Bool :=
  match d with
  | .uint8 | .uint16 | .uint32 | .uint64 => true
  | _ => false

/-- Modelled from the spec: `is_floating_point` holds for the floating
dtypes. -/
def is_floating_point (d : Dtype) : Bool :=
  match d with
  | .float16 | .float32 | .float64 | .bfloat16 => true
  | _ => false

/-- Modelled from the spec: the dtypes whose C++ scalar representative
satisfies `std::is_integral_v` (bool and the integer kinds); this is the
dispatch test used by `RemainderFn` and by integer division. -/
def is_integral_cpp (d : Dtype) : Bool :=
  match d with
  | .bool_ | .uint8 | .uint16 | .uint32 | .uint64
  | .int8 | .int16 | .int32 | .int64 => true
  | _ => false

/-- Storage identity of a tensor's backing buffer: either a freshly allocated
block (obtained from `allocator::malloc_or_wait`) or a shared reference to an
existing reference-counted block identified by `id`. -/
inductive Storage where
  | fresh : Storage
  | shared (id : Nat) : Storage
deriving DecidableEq, Repr

/-- Layout flags of a tensor, derived from shape and strides (§3). -/
structure Flags where
  contiguous : Bool
  row_contiguous : Bool
  col_contiguous : Bool
deriving DecidableEq, Repr

/-- The tensor handle of the data model (§3): dtype, shape, per-dimension
element strides, derived layout flags, buffer contents, storage identity and
the donatability bit maintained by the external reference-counting mechanism.
Buffer contents are a flat list of rationals (see the header comment). -/
structure MArray where
  dtype : Dtype
  shape : List Nat
  strides : List Nat
  flags : Flags
  data : List Rat
  storage : Storage
  donatable : Bool
deriving DecidableEq, Repr

/-- Number of logical elements (`array::size()`). -/
def MArray.size (a : MArray) : Nat := a.shape.prod

/-- Number of elements physically present in the buffer
(`array::data_size()`). -/
def MArray.data_size (a : MArray) : Nat := a.data.length

/-- Element size in bytes (`array::itemsize()`). -/
def MArray.itemsize (a : MArray) : Nat := a.dtype.itemsize

/-- Row-major strides of a given shape: for shape `[a, b, c]` the strides are
`[b*c, c, 1]`. -/
def rowMajorStrides : List Nat → List Nat
  | [] => []
  | _ :: ds => ds.prod :: rowMajorStrides ds

/-- Buffer offset of a logical multi-index under given strides. -/
def offsetOf (strides idx : List Nat) : Nat :=
  (List.zipWith (· * ·) strides idx).sum

/-- Whether a multi-index is inside the bounds of a shape. -/
def validIdx : List Nat → List Nat → Bool
  | [], [] => true
  | d :: ds, i :: is => i < d && validIdx ds is
  | _, _ => false

/-- Row-major multi-index of a flat position `i` inside `shape`. -/
def multiIndex : List Nat → Nat → List Nat
  | [], _ => []
  | _ :: ds, i => i / ds.prod :: multiIndex ds (i % ds.prod)

/-- The logical element of `a` at multi-index `idx` (reading the buffer
through the strides; out-of-range reads default to 0 and are excluded by
well-formedness). -/
def logicalGet (a : MArray) (idx : List Nat) : Rat :=
  a.data.getD (offsetOf a.strides idx) 0

/-- Whether a value is representable at a dtype: integer dtypes hold integral
rationals, unsigned ones hold non-negative integral rationals. -/
def valueOk (d : Dtype) (q : Rat) : Prop :=
  (is_integral_cpp d = true → q.den = 1) ∧ (is_unsigned d = true → 0 ≤ q)

/-- Well-formedness of a tensor handle: strides match the shape in length,
the `row_contiguous` flag implies row-major strides, every valid logical
index reads inside the buffer, and the buffer holds values representable at
the dtype. -/
def MArray.wf (a : MArray) : Prop :=
  a.strides.length = a.shape.length ∧
  (a.flags.row_contiguous = true → a.strides = rowMajorStrides a.shape) ∧
  (∀ idx, validIdx a.shape idx = true → offsetOf a.strides idx < a.data.length) ∧
  (∀ q ∈ a.data, valueOk a.dtype q)

/-- A dense 1-D tensor over a list of values (the standard well-formed
input used by the concrete test vectors). -/
def mk1D (d : Dtype) (xs : List Rat) (sid : Nat) (don : Bool) : MArray :=
  { dtype := d
    shape := [xs.length]
    strides := [1]
    flags := ⟨true, true, true⟩
    data := xs
    storage := .shared sid
    donatable := don }

/-! ## The no-accelerator backend (`mlx/backend/no_metal/primitives.cpp`)

Every primitive's `eval_gpu` entry point is generated by the `NO_GPU` /
`NO_GPU_MULTI` macros, whose bodies throw
`std::runtime_error(#func " has no GPU implementation.")` before producing
any output. -/

/-- The operations bound in `no_metal/primitives.cpp`, in source order. -/
inductive GpuOp where
  | Abs | Add | AddMM | Arange | ArcCos | ArcCosh | ArcSin | ArcSinh
  | ArcTan | ArcTanh | ArgPartition | ArgReduce | ArgSort | AsType
  | AsStrided | Broadcast | Ceil | Compiled | Concatenate | Convolution
  | Copy | Cos | Cosh | CustomVJP | Depends | Divide | DivMod | Remainder
  | Equal | Erf | ErfInv | Exp | FFT | Floor | Full | Gather | Greater
  | GreaterEqual | Less | LessEqual | Load | Log | Log1p | LogicalNot
  | LogicalAnd | LogicalOr | LogAddExp | Matmul | Maximum | Minimum
  | Multiply | Negative | NotEqual | Pad | Partition | Power | QRF
  | QuantizedMatmul | RandomBits | Reduce | Reshape | Round | Scan
  | Scatter | Sigmoid | Sign | Sin | Sinh | Slice | Softmax | Sort
  | Split | Square | Sqrt | StopGradient | Subtract | Tan | Tanh
  | Transpose
deriving DecidableEq, Repr

/-- The `#func` stringization used by the `NO_GPU` / `NO_GPU_MULTI` macros. -/
def gpuOpName : GpuOp → String
  | .Abs => "Abs"
  | .Add => "Add"
  | .AddMM => "AddMM"
  | .Arange => "Arange"
  | .ArcCos => "ArcCos"
  | .ArcCosh => "ArcCosh"
  | .ArcSin => "ArcSin"
  | .ArcSinh => "ArcSinh"
  | .ArcTan => "ArcTan"
  | .ArcTanh => "ArcTanh"
  | .ArgPartition => "ArgPartition"
  | .ArgReduce => "ArgReduce"
  | .ArgSort => "ArgSort"
  | .AsType => "AsType"
  | .AsStrided => "AsStrided"
  | .Broadcast => "Broadcast"
  | .Ceil => "Ceil"
  | .Compiled => "Compiled"
  | .Concatenate => "Concatenate"
  | .Convolution => "Convolution"
  | .Copy => "Copy"
  | .Cos => "Cos"
  | .Cosh => "Cosh"
  | .CustomVJP => "CustomVJP"
  | .Depends => "Depends"
  | .Divide => "Divide"
  | .DivMod => "DivMod"
  | .Remainder => "Remainder"
  | .Equal => "Equal"
  | .Erf => "Erf"
  | .ErfInv => "ErfInv"
  | .Exp => "Exp"
  | .FFT => "FFT"
  | .Floor => "Floor"
  | .Full => "Full"
  | .Gather => "Gather"
  | .Greater => "Greater"
  | .GreaterEqual => "GreaterEqual"
  | .Less => "Less"
  | .LessEqual => "LessEqual"
  | .Load => "Load"
  | .Log => "Log"
  | .Log1p => "Log1p"
  | .LogicalNot => "LogicalNot"
  | .LogicalAnd => "LogicalAnd"
  | .LogicalOr => "LogicalOr"
  | .LogAddExp => "LogAddExp"
  | .Matmul => "Matmul"
  | .Maximum => "Maximum"
  | .Minimum => "Minimum"
  | .Multiply => "Multiply"
  | .Negative => "Negative"
  | .NotEqual => "NotEqual"
  | .Pad => "Pad"
  | .Partition => "Partition"
  | .Power => "Power"
  | .QRF => "QRF"
  | .QuantizedMatmul => "QuantizedMatmul"
  | .RandomBits => "RandomBits"
  | .Reduce => "Reduce"
  | .Reshape => "Reshape"
  | .Round => "Round"
  | .Scan => "Scan"
  | .Scatter => "Scatter"
  | .Sigmoid => "Sigmoid"
  | .Sign => "Sign"
  | .Sin => "Sin"
  | .Sinh => "Sinh"
  | .Slice => "Slice"
  | .Softmax => "Softmax"
  | .Sort => "Sort"
  | .Split => "Split"
  | .Square => "Square"
  | .Sqrt => "Sqrt"
  | .StopGradient => "StopGradient"
  | .Subtract => "Subtract"
  | .Tan => "Tan"
  | .Tanh => "Tanh"
  | .Transpose => "Transpose"

/-- `eval_gpu` of every primitive on the no-accelerator backend: the macro
body throws a runtime error naming the operation, before any output is
produced (the multi-output `NO_GPU_MULTI` variant has the identical body). -/
def eval_gpu (op : GpuOp) (_inputs : List MArray) : Except String (List MArray) :=
  Except.error (gpuOpName op ++ " has no GPU implementation.")

/-! ## Output storage helpers (modelled; they live outside the two source
files) -/

/-- Modelled from the spec: the Buffer Donation decision of §4.1 for one
candidate source: storage is taken over iff the source is donatable and has
matching itemsize, otherwise a fresh block is requested from the allocator. -/
def donationStorage (src : MArray) (outD : Dtype) : Storage :=
  if src.donatable && (src.itemsize == outD.itemsize) then src.storage
  else .fresh

/-- Modelled from the spec: `set_unary_output_data` of the common backend
(declared outside the two source files): the output takes over the input's
strides and flags (the fast paths write the buffer element-by-element in
buffer order), and its storage is obtained by the §4.1 donation rule. -/
def set_unary_output_data (inp : MArray) (outD : Dtype) (newData : List Rat) :
    MArray :=
  { dtype := outD
    shape := inp.shape
    strides := inp.strides
    flags := inp.flags
    data := newData
    storage := donationStorage inp outD
    donatable := false }

/-- `array::copy_shared_buffer`: the output aliases the input's storage
directly, sharing buffer, strides and flags, with contents unchanged; this is
not subject to the donation rule. -/
def copy_shared_buffer (inp : MArray) (outD : Dtype) : MArray :=
  { dtype := outD
    shape := inp.shape
    strides := inp.strides
    flags := inp.flags
    data := inp.data
    storage := inp.storage
    donatable := false }

/-- Flags of a freshly allocated dense row-major output. -/
def contigFlags : Flags := ⟨true, true, false⟩

/-- A freshly allocated dense row-major output holding `dat`. -/
def freshRowMajor (shape : List Nat) (outD : Dtype) (dat : List Rat) : MArray :=
  { dtype := outD
    shape := shape
    strides := rowMajorStrides shape
    flags := contigFlags
    data := dat
    storage := .fresh
    donatable := false }

/-! ## The generic elementwise unary engine (modelled from the spec, §4.2) -/

/-- Modelled from the spec: the universal unary fallback
`unary(input, output, op)` computes `output[i] = op(input[i])` for every
logical index `i`, honoring arbitrary strides on the input; the output is
written densely in row-major order and its storage follows the §4.1
donation-or-allocate rule. -/
def unaryG (inp : MArray) (outD : Dtype) (op : Rat → Rat) : MArray :=
  { dtype := outD
    shape := inp.shape
    strides := rowMajorStrides inp.shape
    flags := contigFlags
    data := (List.range inp.size).map fun i =>
      op (logicalGet inp (multiIndex inp.shape i))
    storage := donationStorage inp outD
    donatable := false }

/-- The shared shape of every vectorized unary fast path in
`accelerate/primitives.cpp`: acquire output storage via
`set_unary_output_data`, then run the platform routine densely over the
buffer (`data_size` elements, stride 1). -/
def fastUnary (inp : MArray) (outD : Dtype) (f : Rat → Rat) : MArray :=
  set_unary_output_data inp outD (inp.data.map f)

/-- Two outputs agree when they have the same shape and the same logical
element at every valid index (the spec's notion of "producing the same
values": storage identity and physical layout may differ). -/
def agree (x y : MArray) : Prop :=
  x.shape = y.shape ∧
  ∀ idx, validIdx x.shape idx = true → logicalGet x idx = logicalGet y idx

/-! ## Scalar arithmetic helpers -/

/-- Truncation toward zero of a rational: the rounding of C++ integer casts,
of C++ integer division/remainder, and of the platform float-to-integer
conversions. -/
def ratTrunc (q : Rat) : Int := q.num.tdiv (q.den : Int)

/-- C-style truncating integer division, on integral rationals. -/
def intDivQ (x y : Rat) : Rat := ((ratTrunc (x / y) : Int) : Rat)

/-- C-style truncating integer remainder (`%` on two's-complement integers),
on integral rationals. -/
def tmodQ (x y : Rat) : Rat := ((Int.tmod (ratTrunc x) (ratTrunc y) : Int) : Rat)

/-- `std::fmod` on exact rationals: `x - trunc(x/y)*y`; the result has the
sign of the dividend and magnitude less than the divisor's. -/
def fmodQ (x y : Rat) : Rat := x - ((ratTrunc (x / y) : Int) : Rat) * y

/-- Floor of a rational, as floor-division of numerator by denominator. -/
def ratFloor (q : Rat) : Int := q.num.fdiv (q.den : Int)

/-- Round to nearest integer, ties to even: the IEEE default rounding used by
libm `remainder`. -/
def roundEvenQ (q : Rat) : Int :=
  if q - (ratFloor q : Rat) < 1/2 then ratFloor q
  else if 1/2 < q - (ratFloor q : Rat) then ratFloor q + 1
  else if ratFloor q % 2 = 0 then ratFloor q else ratFloor q + 1

/-- IEEE remainder (libm `remainderf`): `x - n*y` with `n` the
round-to-nearest-even integer quotient. Unlike `fmod` its result can have
the opposite sign from the dividend. -/
def ieeeRemQ (x y : Rat) : Rat := x - ((roundEvenQ (x / y) : Int) : Rat) * y

/-- C++ division `x / y` at a dtype: truncating integer division for
dtypes whose scalar type is integral, field division otherwise. -/
def divScalar (d : Dtype) (x y : Rat) : Rat :=
  if is_integral_cpp d then intDivQ x y else x / y

/-- `RemainderFn` of `accelerate/primitives.cpp`: `numerator % denominator`
(truncating) for integral scalar types, `std::fmod` for the rest. -/
def RemainderFn (d : Dtype) (x y : Rat) : Rat :=
  if is_integral_cpp d then tmodQ x y else fmodQ x y

/-! ## Platform vector routines (modelled from their documented conventions;
the spec describes their roles in §4.3-§4.4) -/

/-- Modelled from the spec: `vDSP_vsadd` adds a scalar to each element. -/
def vDSP_vsadd (v : List Rat) (s : Rat) : List Rat := v.map (fun x => x + s)

/-- Modelled from the spec: `vDSP_vsaddi`, integer scalar add. -/
def vDSP_vsaddi (v : List Rat) (s : Rat) : List Rat := v.map (fun x => x + s)

/-- Modelled from the spec: `vDSP_vadd`, elementwise add. -/
def vDSP_vadd (x y : List Rat) : List Rat := List.zipWith (· + ·) x y

/-- Modelled from the spec: `vDSP_vaddi`, elementwise integer add. -/
def vDSP_vaddi (x y : List Rat) : List Rat := List.zipWith (· + ·) x y

/-- Modelled from the spec: `vDSP_vsub(B, A, C)` computes `C = A - B`
(subtrahend passed first). -/
def vDSP_vsub (bv av : List Rat) : List Rat :=
  List.zipWith (fun bi ai => ai - bi) bv av

/-- Modelled from the spec: `vDSP_vsmsa(A, B, C, D)` computes
`D = A*B + C` for scalars `B`, `C`. -/
def vDSP_vsmsa (v : List Rat) (m s : Rat) : List Rat :=
  v.map (fun x => x * m + s)

/-- Modelled from the spec: `vDSP_vsmul`, scalar multiply. -/
def vDSP_vsmul (v : List Rat) (s : Rat) : List Rat := v.map (fun x => x * s)

/-- Modelled from the spec: `vDSP_vmul`, elementwise multiply. -/
def vDSP_vmul (x y : List Rat) : List Rat := List.zipWith (· * ·) x y

/-- Modelled from the spec: `vDSP_svdiv(S, B, C)` divides the scalar by each
element: `C = S / B`. -/
def vDSP_svdiv (s : Rat) (v : List Rat) : List Rat := v.map (fun x => s / x)

/-- Modelled from the spec: `vDSP_vsdiv`, divide each element by a scalar. -/
def vDSP_vsdiv (v : List Rat) (s : Rat) : List Rat := v.map (fun x => x / s)

/-- Modelled from the spec: `vDSP_vdiv(B, A, C)` computes `C = A / B`
(divisor passed first). -/
def vDSP_vdiv (bv av : List Rat) : List Rat :=
  List.zipWith (fun bi ai => ai / bi) bv av

/-- Modelled from the spec: `vDSP_vsdivi`, truncating integer divide by a
scalar. -/
def vDSP_vsdivi (v : List Rat) (s : Rat) : List Rat :=
  v.map (fun x => intDivQ x s)

/-- Modelled from the spec: `vDSP_vdivi(B, A, C)` computes the truncating
integer quotient `C = A / B` (divisor passed first). -/
def vDSP_vdivi (bv av : List Rat) : List Rat :=
  List.zipWith (fun bi ai => intDivQ ai bi) bv av

/-- Modelled from the spec: `vvremainderf(Z, X, Y)` is the vectorized libm
`remainderf`: the IEEE round-to-nearest remainder, not `fmod`. -/
def vvremainderf (x y : List Rat) : List Rat := List.zipWith ieeeRemQ x y

/-- Modelled from the spec: `vvpowf(Z, Y, X)` computes `Z = X ** Y` with the
exponent array passed first and the base array second. -/
def vvpowf (powf : Rat → Rat → Rat) (y x : List Rat) : List Rat :=
  List.zipWith (fun yi xi => powf xi yi) y x

/-- Modelled from the spec: `vDSP_vfix32` / `vDSP_vfixu32` convert float to
(unsigned) 32-bit integer, truncating toward zero. -/
def vDSP_vfix (q : Rat) : Rat := ((ratTrunc q : Int) : Rat)

/-- Modelled from the spec: `vDSP_vflt32` / `vDSP_vfltu32` convert (unsigned)
32-bit integer to float (value-preserving at this abstraction). -/
def vDSP_vflt (q : Rat) : Rat := q

/-! ## Per-operation unary dispatch (`accelerate/primitives.cpp`) -/

/-- Result of one CPU evaluation: the output tensor and whether the
vectorized fast path was taken. -/
structure Evald where
  out : MArray
  fast : Bool

/-- `Abs::eval_cpu`: `vDSP_vabs` for contiguous float32, `vDSP_vabsi` for
contiguous int32, a storage-sharing no-op for unsigned dtypes, generic
`unary` with `AbsOp` otherwise. -/
def Abs.eval_cpu (inp : MArray) (outD : Dtype) : Evald :=
  if inp.dtype == .float32 && inp.flags.contiguous then
    ⟨fastUnary inp outD (fun x => |x|), true⟩
  else if inp.dtype == .int32 && inp.flags.contiguous then
    ⟨fastUnary inp outD (fun x => |x|), true⟩
  else if is_unsigned inp.dtype then
    ⟨copy_shared_buffer inp outD, false⟩
  else
    ⟨unaryG inp outD (fun x => |x|), false⟩

/-- The dispatch shape shared by `Negative`, `Square` and `Sqrt`: the dense
platform routine when the input dtype is float32 and the input contiguous,
the generic unary engine otherwise. -/
def unaryInFloat.eval_cpu (f : Rat → Rat) (inp : MArray) (outD : Dtype) :
    Evald :=
  if inp.dtype == .float32 && inp.flags.contiguous then
    ⟨fastUnary inp outD f, true⟩
  else ⟨unaryG inp outD f, false⟩

/-- `Negative::eval_cpu` (`vDSP_vneg` on the fast path). -/
def Negative.eval_cpu (inp : MArray) (outD : Dtype) : Evald :=
  unaryInFloat.eval_cpu (fun x => -x) inp outD

/-- `Square::eval_cpu` (`vDSP_vsq` on the fast path). -/
def Square.eval_cpu (inp : MArray) (outD : Dtype) : Evald :=
  unaryInFloat.eval_cpu (fun x => x * x) inp outD

/-- `Sqrt::eval_cpu`: `vvrsqrtf` when the `recip_` flag is set, `vvsqrtf`
otherwise; the abstract scalar square root is `sqrtf` and the reciprocal
routine is modelled as its pointwise reciprocal. -/
def Sqrt.eval_cpu (sqrtf : Rat → Rat) (recip : Bool) (inp : MArray)
    (outD : Dtype) : Evald :=
  unaryInFloat.eval_cpu (if recip then fun x => 1 / sqrtf x else sqrtf) inp outD

/-- The dispatch shape shared by `ArcCos`, `ArcCosh`, `ArcSin`, `ArcSinh`,
`ArcTan`, `ArcTanh`, `Cos`, `Cosh`, `Sin`, `Sinh`, `Tan`, `Tanh` and (after
the per-base routine choice) `Log`: dense platform routine when the output
dtype is float32 and the input contiguous, generic fallback otherwise; `f`
is the operation's abstract scalar function, used by both paths. -/
def unaryOutFloat.eval_cpu (f : Rat → Rat) (inp : MArray) (outD : Dtype) :
    Evald :=
  if outD == .float32 && inp.flags.contiguous then
    ⟨fastUnary inp outD f, true⟩
  else ⟨unaryG inp outD f, false⟩

/-- Modelled from the spec: the floating-point-restricted unary engine
`unary_fp` (§4.2, declared outside the two source files): same contract as
`unary` but an argument error when the output dtype is not floating. -/
def unary_fp (inp : MArray) (outD : Dtype) (op : Rat → Rat) :
    Except String MArray :=
  if is_floating_point outD then .ok (unaryG inp outD op)
  else .error "[unary_fp] Does not support non floating point types."

/-- `Exp::eval_cpu`: `vvexpf` for contiguous float32 output, `unary_fp` for
other floating outputs, and an invalid-argument error (raised before any
computation or allocation) for non-floating outputs. -/
def Exp.eval_cpu (expf : Rat → Rat) (inp : MArray) (outD : Dtype) :
    Except String Evald :=
  if outD == .float32 && inp.flags.contiguous then
    .ok ⟨fastUnary inp outD expf, true⟩
  else if is_floating_point outD then
    (unary_fp inp outD expf).map (⟨·, false⟩)
  else
    .error "[exp] Cannot exponentiate elements in array with non floating point type."

/-- `Log1p::eval_cpu`: `vvlog1pf` for contiguous float32 output, `unary_fp`
for other floating outputs, and an invalid-argument error for non-floating
outputs. -/
def Log1p.eval_cpu (lf : Rat → Rat) (inp : MArray) (outD : Dtype) :
    Except String Evald :=
  if outD == .float32 && inp.flags.contiguous then
    .ok ⟨fastUnary inp outD lf, true⟩
  else if is_floating_point outD then
    (unary_fp inp outD lf).map (⟨·, false⟩)
  else
    .error "[log1p] Cannot compute log of elements in array with non floating point type."

/-- Modelled from the spec: the generic element-wise cast (the common
backend's `AsType::eval`, outside the two source files): each value is
converted to the target dtype, truncating toward zero for integer targets,
0/1-valued for bool. -/
def castScalar (toD : Dtype) (q : Rat) : Rat :=
  if toD == .bool_ then (if q == 0 then 0 else 1)
  else if is_integral_cpp toD then ((ratTrunc q : Int) : Rat)
  else q

/-- Modelled from the spec: `AsType::eval`, the generic element-wise cast. -/
def AsType.eval (inp : MArray) (outD : Dtype) : MArray :=
  unaryG inp outD (castScalar outD)

/-- `AsType::eval_cpu`: vectorized conversions for contiguous inputs in the
four dtype pairs float32→uint32, float32→int32, uint32→float32,
int32→float32; the generic element-wise cast for every other pair or
non-contiguous input. -/
def AsType.eval_cpu (inp : MArray) (outD : Dtype) : Evald :=
  if inp.flags.contiguous then
    if inp.dtype == .float32 && outD == .uint32 then
      ⟨fastUnary inp outD vDSP_vfix, true⟩
    else if inp.dtype == .float32 && outD == .int32 then
      ⟨fastUnary inp outD vDSP_vfix, true⟩
    else if inp.dtype == .uint32 && outD == .float32 then
      ⟨fastUnary inp outD vDSP_vflt, true⟩
    else if inp.dtype == .int32 && outD == .float32 then
      ⟨fastUnary inp outD vDSP_vflt, true⟩
    else ⟨AsType.eval inp outD, false⟩
  else ⟨AsType.eval inp outD, false⟩

/-- Modelled from the spec: `Full::eval`, the generic broadcast copy of the
single source (inputs arrive pre-aligned to the output shape). -/
def Full.eval (inp : MArray) (outD : Dtype) : MArray :=
  unaryG inp outD (fun x => x)

/-- `Full::eval_cpu`: when the source holds exactly one element and the
output dtype is float32, allocate fresh storage and `vDSP_vfill` the scalar
across all `out.size()` elements; generic fallback otherwise. -/
def Full.eval_cpu (inp : MArray) (outD : Dtype) : Evald :=
  if inp.data_size == 1 && outD == .float32 then
    ⟨freshRowMajor inp.shape outD
      (List.replicate inp.size (inp.data.getD 0 0)), true⟩
  else ⟨Full.eval inp outD, false⟩

/-! ## The elementwise binary engine (modelled from the spec, §4.3) -/

/-- Structural dispatch cases of the binary engine. -/
inductive BinCase where
  | scalarVector | vectorScalar | vectorVector | general
deriving DecidableEq, Repr

/-- Modelled from the spec: structural case selection of §4.3. Inputs arrive
pre-aligned to a common logical shape (broadcast dimensions realized as
stride-0 views), so a broadcast scalar is a single-element tensor; the
vector-vector case requires matching contiguous layouts. -/
def binCase (a b : MArray) : BinCase :=
  if a.data.length == 1 && b.flags.contiguous then .scalarVector
  else if b.data.length == 1 && a.flags.contiguous then .vectorScalar
  else if a.flags.contiguous && b.flags.contiguous && a.strides == b.strides then
    .vectorVector
  else .general

/-- Modelled from the spec: output storage of the binary engine, by the §4.1
donation rule applied in the fixed priority order `a` first, then `b`. -/
def binStorage (a b : MArray) (outD : Dtype) : Storage :=
  if a.donatable && (a.itemsize == outD.itemsize) then a.storage
  else if b.donatable && (b.itemsize == outD.itemsize) then b.storage
  else .fresh

/-- An output that reuses the layout (strides and flags) of the dense
operand its buffer is written in the order of. -/
def withLayout (src : MArray) (shape : List Nat) (outD : Dtype)
    (dat : List Rat) (stor : Storage) : MArray :=
  { dtype := outD
    shape := shape
    strides := src.strides
    flags := src.flags
    data := dat
    storage := stor
    donatable := false }

/-- Modelled from the spec: the Elementwise Binary Engine (§4.3):
`binary(a, b, out, op, opsv?, opvs?, opvv?)`. Each structural case uses the
supplied specialized kernel when present, else the generic per-element
application of `op` over the same buffers (the
`UseDefaultBinaryOp` sentinel is `none`); the general case applies `op` at
every logical index honoring both inputs' strides, writing a dense row-major
output. -/
def binary (a b : MArray) (outD : Dtype) (op : Rat → Rat → Rat)
    (opsv : Option (Rat → List Rat → List Rat))
    (opvs : Option (List Rat → Rat → List Rat))
    (opvv : Option (List Rat → List Rat → List Rat)) : MArray :=
  match binCase a b with
  | .scalarVector =>
    let s := a.data.getD 0 0
    let dat := match opsv with
      | some k => k s b.data
      | none => b.data.map (fun y => op s y)
    withLayout b a.shape outD dat (binStorage a b outD)
  | .vectorScalar =>
    let s := b.data.getD 0 0
    let dat := match opvs with
      | some k => k a.data s
      | none => a.data.map (fun x => op x s)
    withLayout a a.shape outD dat (binStorage a b outD)
  | .vectorVector =>
    let dat := match opvv with
      | some k => k a.data b.data
      | none => List.zipWith op a.data b.data
    withLayout a a.shape outD dat (binStorage a b outD)
  | .general =>
    freshRowMajor a.shape outD ((List.range a.shape.prod).map fun i =>
      op (logicalGet a (multiIndex a.shape i))
        (logicalGet b (multiIndex a.shape i)))

/-! ## Per-operation binary dispatch (`accelerate/primitives.cpp`) -/

/-- `Add::eval_cpu`: float32 uses `vDSP_vsadd`/`vDSP_vadd` kernels, int32
uses `vDSP_vsaddi`/`vDSP_vaddi`, every other dtype the kernel-free engine. -/
def Add.eval_cpu (a b : MArray) (outD : Dtype) : MArray :=
  if a.dtype == .float32 then
    binary a b outD (· + ·)
      (some fun s v => vDSP_vsadd v s)
      (some fun v s => vDSP_vsadd v s)
      (some fun x y => vDSP_vadd x y)
  else if a.dtype == .int32 then
    binary a b outD (· + ·)
      (some fun s v => vDSP_vsaddi v s)
      (some fun v s => vDSP_vsaddi v s)
      (some fun x y => vDSP_vaddi x y)
  else
    binary a b outD (· + ·) none none none

/-- `Subtract::eval_cpu`: float32 uses `vDSP_vsmsa` (scalar-left),
`vDSP_vsadd` of the negated scalar (scalar-right) and `vDSP_vsub`
(vector-vector, subtrahend passed first); int32 supplies only the
scalar-right kernel; other dtypes are kernel-free. -/
def Subtract.eval_cpu (a b : MArray) (outD : Dtype) : MArray :=
  if a.dtype == .float32 then
    binary a b outD (· - ·)
      (some fun s v => vDSP_vsmsa v (-1) s)
      (some fun v s => vDSP_vsadd v (-s))
      (some fun x y => vDSP_vsub y x)
  else if a.dtype == .int32 then
    binary a b outD (· - ·)
      none
      (some fun v s => vDSP_vsaddi v (-s))
      none
  else
    binary a b outD (· - ·) none none none

/-- `Multiply::eval_cpu`: float32 uses `vDSP_vsmul`/`vDSP_vmul` kernels,
every other dtype the kernel-free engine. -/
def Multiply.eval_cpu (a b : MArray) (outD : Dtype) : MArray :=
  if a.dtype == .float32 then
    binary a b outD (· * ·)
      (some fun s v => vDSP_vsmul v s)
      (some fun v s => vDSP_vsmul v s)
      (some fun x y => vDSP_vmul x y)
  else
    binary a b outD (· * ·) none none none

/-- `Divide::eval_cpu`: int32 supplies `vDSP_vsdivi`/`vDSP_vdivi` (no
scalar-left kernel), float32 supplies `vDSP_svdiv`/`vDSP_vsdiv`/`vDSP_vdiv`;
the generic op is C++ `x / y` at the dtype. -/
def Divide.eval_cpu (a b : MArray) (outD : Dtype) : MArray :=
  if a.dtype == .int32 then
    binary a b outD (divScalar a.dtype)
      none
      (some fun v s => vDSP_vsdivi v s)
      (some fun x y => vDSP_vdivi y x)
  else if a.dtype == .float32 then
    binary a b outD (divScalar a.dtype)
      (some fun s v => vDSP_svdiv s v)
      (some fun v s => vDSP_vsdiv v s)
      (some fun x y => vDSP_vdiv y x)
  else
    binary a b outD (divScalar a.dtype) none none none

/-- `Remainder::eval_cpu`: float32 supplies only the vector-vector kernel
`vvremainderf` (IEEE remainder) over the generic `RemainderFn` (`fmod`);
other dtypes are kernel-free. -/
def Remainder.eval_cpu (a b : MArray) (outD : Dtype) : MArray :=
  if a.dtype == .float32 then
    binary a b outD (RemainderFn a.dtype)
      none
      none
      (some fun x y => vvremainderf x y)
  else
    binary a b outD (RemainderFn a.dtype) none none none

/-- `Power::eval_cpu`: when the output dtype is float32 and both operands
are row-contiguous, storage is donated from `a` if it qualifies under §4.1,
else from `b`, else freshly allocated, and `vvpowf` is invoked with the
exponent buffer (`b`) first and the base buffer (`a`) second; otherwise the
generic binary evaluation with the abstract scalar power `powf`. -/
def Power.eval_cpu (powf : Rat → Rat → Rat) (a b : MArray) (outD : Dtype) :
    Evald :=
  if outD == .float32 && a.flags.row_contiguous && b.flags.row_contiguous then
    let dat := vvpowf powf b.data a.data
    if a.donatable && (a.itemsize == outD.itemsize) then
      ⟨{ dtype := outD, shape := a.shape, strides := a.strides,
         flags := a.flags, data := dat, storage := a.storage,
         donatable := false }, true⟩
    else if b.donatable && (b.itemsize == outD.itemsize) then
      ⟨{ dtype := outD, shape := a.shape, strides := b.strides,
         flags := b.flags, data := dat, storage := b.storage,
         donatable := false }, true⟩
    else
      ⟨{ dtype := outD, shape := a.shape, strides := rowMajorStrides a.shape,
         flags := contigFlags, data := dat, storage := .fresh,
         donatable := false }, true⟩
  else
    ⟨binary a b outD powf none none none, false⟩

/-! ## Scan -/

/-- Scan reduce kinds (modelled from the spec; the primitive declarations
live outside the two source files). -/
inductive ReduceType where
  | Sum | Prod | Min | Max | LogAddExp
deriving DecidableEq, Repr

/-- Modelled from the spec: the scalar fold of each reduce kind. Sum,
product, min and max are exact on rationals; log-add-exp is transcendental
and stays abstract (`lae`). -/
def reduceOpQ (lae : Rat → Rat → Rat) : ReduceType → Rat → Rat → Rat
  | .Sum => (· + ·)
  | .Prod => (· * ·)
  | .Min => fun x y => min x y
  | .Max => fun x y => max x y
  | .LogAddExp => lae

/-- Modelled from the spec: the fold seed of each reduce kind (the additive
and multiplicative identities; min/max/log-add-exp seeds are dtype limits,
kept abstract here). -/
def reduceInitQ (otherInit : Rat) : ReduceType → Rat
  | .Sum => 0
  | .Prod => 1
  | _ => otherInit

/-- Positions of the scanned axis folded into the output at axis coordinate
`ia`, in ascending order (every modelled fold is commutative at this
abstraction): a forward scan accumulates the positions before `ia`
(inclusive scans also include `ia` itself), a reverse scan the positions
after it. -/
def scanIdxList (reverse inclusive : Bool) (L ia : Nat) : List Nat :=
  if reverse then
    if inclusive then (List.range (L - ia)).map (fun t => ia + t)
    else (List.range (L - (ia + 1))).map (fun t => ia + 1 + t)
  else
    if inclusive then List.range (ia + 1)
    else List.range ia

/-- Modelled from the spec: the value of the generic scan fallback at one
logical index — the fold of the operation over the axis positions selected
by direction and inclusivity. -/
def scanAt (op : Rat → Rat → Rat) (init : Rat) (reverse inclusive : Bool)
    (inp : MArray) (axis : Nat) (idx : List Nat) : Rat :=
  ((scanIdxList reverse inclusive (inp.shape.getD axis 0)
      (idx.getD axis 0)).map
    (fun j => logicalGet inp (idx.set axis j))).foldl op init

/-- Modelled from the spec: `Scan::eval`, the generic scan of the common
backend — a prefix reduction along one axis, inclusive or exclusive, forward
or reverse, for any reduce kind and layout, writing a dense row-major
output. -/
def Scan.eval (rt : ReduceType) (axis : Nat) (reverse inclusive : Bool)
    (lae : Rat → Rat → Rat) (otherInit : Rat) (inp : MArray) (outD : Dtype) :
    MArray :=
  freshRowMajor inp.shape outD ((List.range inp.size).map fun i =>
    scanAt (reduceOpQ lae rt) (reduceInitQ otherInit rt) reverse inclusive
      inp axis (multiIndex inp.shape i))

/-- One row of the forward fast path: the loop calls
`vDSP_vrsum(input - 1, 1, &s, output, 1, stride)`; the routine's convention
is `C[n] = S * (A[1] + ... + A[n])` with `C[0] = 0`, so with the input
pointer offset back by one it writes the scale-`s` exclusive forward prefix
sums of the row. -/
def scanRowFwd (s : Rat) (row : List Rat) : List Rat :=
  (List.range row.length).map (fun n => s * (row.take n).sum)

/-- One row of the reverse fast path: the loop offsets both pointers to the
row's last element and calls `vDSP_vrsum(input + 1, -1, &s, output, -1,
stride)`, processing the row from its last element backward; position `k`
receives the scale-`s` sum of the elements after `k` (the last output is
0). -/
def scanRowRev (s : Rat) (row : List Rat) : List Rat :=
  (List.range row.length).map (fun k => s * (row.drop (k + 1)).sum)

/-- The buffer written by the fast-path loop: `count` independent rows of
length `stride`, each produced by one `vDSP_vrsum` sweep (the input and
output pointers advance by `stride` between iterations). -/
def scanChunks (reverse : Bool) (stride : Nat) : Nat → List Rat → List Rat
  | 0, _ => []
  | c + 1, xs =>
    (if reverse then scanRowRev 1 (xs.take stride)
     else scanRowFwd 1 (xs.take stride)) ++
      scanChunks reverse stride c (xs.drop stride)

/-- `Scan::eval_cpu`: the fast path applies exactly to an exclusive Sum scan
with float32 output over a row-contiguous input whose scanned axis has unit
stride; it obtains output storage by fresh allocation (never donating),
sets `stride = in.shape(axis)` and `count = in.size() / stride`, and runs
one running-sum sweep per row seeded with the value 1.0; every other
combination delegates to the generic evaluation. -/
def Scan.eval_cpu (rt : ReduceType) (axis : Nat) (reverse inclusive : Bool)
    (lae : Rat → Rat → Rat) (otherInit : Rat) (inp : MArray) (outD : Dtype) :
    Evald :=
  if rt == .Sum && outD == .float32 && inp.flags.row_contiguous &&
      inp.strides.getD axis 0 == 1 && !inclusive then
    let stride := inp.shape.getD axis 0
    let count := inp.size / stride
    ⟨freshRowMajor inp.shape outD (scanChunks reverse stride count inp.data),
      true⟩
  else
    ⟨Scan.eval rt axis reverse inclusive lae otherInit inp outD, false⟩

/-- The operations of the optimized CPU backend covered by this development.
Transcendental scalar semantics are carried as abstract functions inside the
constructors and used identically by the fast path and the generic fallback;
`uOutFloat` covers the twelve trig/hyperbolic operations and (after the
per-base routine choice) `Log`; `uInFloat` covers `Negative`, `Square` and
`Sqrt`; `defaulted` stands for the roughly 45 operations bound by the
`DEFAULT` / `DEFAULT_MULTI` macros, whose `eval_cpu` is their generic `eval`
itself. -/
inductive CpuOp where
  | abs
  | add
  | subtract
  | multiply
  | divide
  | remainder
  | power (powf : Rat → Rat → Rat)
  | expOp (expf : Rat → Rat)
  | log1pOp (lf : Rat → Rat)
  | uOutFloat (f : Rat → Rat)
  | uInFloat (f : Rat → Rat)
  | asType
  | scanOp (rt : ReduceType) (axis : Nat) (reverse inclusive : Bool)
      (lae : Rat → Rat → Rat) (otherInit : Rat)
  | full
  | defaulted (g : List MArray → Dtype → MArray)

/-- The optimized CPU backend entry point, dispatching to the per-operation
`eval_cpu` translated above (arity mismatches, prevented by assertions in
the C++, are errors here on both backends). -/
def evalCpu : CpuOp → List MArray → Dtype → Except String Evald
  | .abs, [a], outD => .ok (Abs.eval_cpu a outD)
  | .add, [a, b], outD => .ok ⟨Add.eval_cpu a b outD, false⟩
  | .subtract, [a, b], outD => .ok ⟨Subtract.eval_cpu a b outD, false⟩
  | .multiply, [a, b], outD => .ok ⟨Multiply.eval_cpu a b outD, false⟩
  | .divide, [a, b], outD => .ok ⟨Divide.eval_cpu a b outD, false⟩
  | .remainder, [a, b], outD => .ok ⟨Remainder.eval_cpu a b outD, false⟩
  | .power f, [a, b], outD => .ok (Power.eval_cpu f a b outD)
  | .expOp f, [a], outD => Exp.eval_cpu f a outD
  | .log1pOp f, [a], outD => Log1p.eval_cpu f a outD
  | .uOutFloat f, [a], outD => .ok (unaryOutFloat.eval_cpu f a outD)
  | .uInFloat f, [a], outD => .ok (unaryInFloat.eval_cpu f a outD)
  | .asType, [a], outD => .ok (AsType.eval_cpu a outD)
  | .scanOp rt ax rev incl lae oi, [a], outD =>
      .ok (Scan.eval_cpu rt ax rev incl lae oi a outD)
  | .full, [a], outD => .ok (Full.eval_cpu a outD)
  | .defaulted g, inputs, outD => .ok ⟨g inputs outD, false⟩
  | _, _, _ => .error "wrong number of inputs"

/-- Modelled from the spec: the backend-agnostic generic evaluation
(`Primitive::eval` of the common backend) of each covered operation. -/
def evalGeneric : CpuOp → List MArray → Dtype → Except String MArray
  | .abs, [a], outD => .ok (unaryG a outD (fun x => |x|))
  | .add, [a, b], outD => .ok (binary a b outD (· + ·) none none none)
  | .subtract, [a, b], outD => .ok (binary a b outD (· - ·) none none none)
  | .multiply, [a, b], outD => .ok (binary a b outD (· * ·) none none none)
  | .divide, [a, b], outD =>
      .ok (binary a b outD (divScalar a.dtype) none none none)
  | .remainder, [a, b], outD =>
      .ok (binary a b outD (RemainderFn a.dtype) none none none)
  | .power f, [a, b], outD => .ok (binary a b outD f none none none)
  | .expOp f, [a], outD => unary_fp a outD f
  | .log1pOp f, [a], outD => unary_fp a outD f
  | .uOutFloat f, [a], outD => .ok (unaryG a outD f)
  | .uInFloat f, [a], outD => .ok (unaryG a outD f)
  | .asType, [a], outD => .ok (AsType.eval a outD)
  | .scanOp rt ax rev incl lae oi, [a], outD =>
      .ok (Scan.eval rt ax rev incl lae oi a outD)
  | .full, [a], outD => .ok (Full.eval a outD)
  | .defaulted g, inputs, outD => .ok (g inputs outD)
  | _, _, _ => .error "wrong number of inputs"

/-- Result equivalence between the two entry points: both fail, or both
produce outputs with the same shape and the same value at every valid
logical index. -/
def sameResult : Except String Evald → Except String MArray → Prop
  | .error _, .error _ => True
  | .ok e, .ok m => agree e.out m
  | _, _ => False

/-- Well-formedness of an input list: every input is well-formed and all
inputs share the leading input's shape (the graph layer broadcasts before
evaluation, realizing broadcasts as stride-0 views). -/
def inputsWf : List MArray → Prop
  | [] => True
  | a :: rest => a.wf ∧ ∀ b ∈ rest, b.wf ∧ b.shape = a.shape

/-- Whether the inputs select Remainder's float32 vector-vector kernel — the
one fast path that disagrees with its own generic fallback (IEEE remainder
vs `fmod`; see the Remainder code-bug analysis). -/
def remainderKernelHit : CpuOp → List MArray → Bool
  | .remainder, [a, b] =>
      a.dtype == .float32 &&
        (match binCase a b with
          | .vectorVector => true
          | _ => false)
  | _, _ => false

/-- Number of inputs each operation consumes (`none`: any number, for the
`defaulted` family). -/
def arity : CpuOp → Option Nat
  | .add | .subtract | .multiply | .divide | .remainder | .power _ => some 2
  | .defaulted _ => none
  | _ => some 1

/-- The operations restricted to floating-point outputs (hard invalid-dtype
error otherwise). -/
def isFpRestricted : CpuOp → Bool
  | .expOp _ => true
  | .log1pOp _ => true
  | _ => false

/-- Contents of an input's buffer after an evaluation: overwritten by the
output's values when the output took over the input's storage, unchanged
otherwise. -/
def bufferAfter (inp out : MArray) : List Rat :=
  if out.storage = inp.storage then out.data else inp.data

/-- A non-contiguous, non-donatable unsigned tensor used to witness that
Abs's aliasing happens outside the donation rule. -/
def tUns : MArray :=
  { dtype := .uint32
    shape := [2]
    strides := [3]
    flags := ⟨false, false, false⟩
    data := [5, 7]
    storage := .shared 42
    donatable := false }

/-- A donatable contiguous float32 vector. -/
def tDon : MArray := mk1D .float32 [1, 2, 3] 7 true

/-- The same vector with a simulated second owner (not donatable). -/
def tNoDon : MArray := mk1D .float32 [1, 2, 3] 7 false

/-- Base operand for the Power witness. -/
def aPow : MArray := mk1D .float32 [2, 3] 0 true

/-- Exponent operand for the Power witness (not donatable). -/
def bPow : MArray := mk1D .float32 [5, 1] 1 false

/-- An int32 scalar tensor. -/
def tInt32 : MArray := mk1D .int32 [1] 0 false

/-- The rational 1.9 as an explicit reduced fraction (rational arithmetic
does not reduce inside the kernel; an explicit fraction keeps the cast
example computable). -/
def q1p9 : Rat := ⟨19, 10, by norm_num, by norm_num⟩

/-- The rational -2.9 as an explicit reduced fraction. -/
def qm2p9 : Rat := ⟨-29, 10, by norm_num, by norm_num⟩

/-- Left operand (dividends) of the Remainder failing input: a dense
float32 vector, so the vector-vector kernel is selected. -/
def aRem : MArray := mk1D .float32 [(11:Rat)/2, 1] 0 false

/-- Right operand (divisors) of the Remainder failing input. -/
def bRem : MArray := mk1D .float32 [2, 1] 1 false

/-- First addend for the C1 witness. -/
def aAdd : MArray := mk1D .float32 [1, 2] 0 true

/-- Second addend for the C1 witness. -/
def bAdd : MArray := mk1D .float32 [3, 4] 1 false

/-! ## Theorems -/

/-! ## List access lemmas -/

theorem getD_map_lt (f : Rat → Rat) (xs : List Rat) {i : Nat}
    (h : i < xs.length) (d d' : Rat) :
    (xs.map f).getD i d = f (xs.getD i d') := by
  have hl : i < (xs.map f).length := by simpa using h
  rw [List.getD_eq_getElem _ _ hl, List.getD_eq_getElem _ _ h]
  simp

theorem getD_range_map (g : Nat → Rat) {n i : Nat} (h : i < n) (d : Rat) :
    ((List.range n).map g).getD i d = g i := by
  have hl : i < ((List.range n).map g).length := by simpa using h
  rw [List.getD_eq_getElem _ _ hl]
  simp

theorem getD_zipWith_lt (f : Rat → Rat → Rat) (xs ys : List Rat) {i : Nat}
    (hx : i < xs.length) (hy : i < ys.length) (d : Rat) :
    (List.zipWith f xs ys).getD i d = f (xs.getD i 0) (ys.getD i 0) := by
  have hl : i < (List.zipWith f xs ys).length := by
    simp only [List.length_zipWith]
    exact lt_min hx hy
  rw [List.getD_eq_getElem _ _ hl, List.getD_eq_getElem _ _ hx,
    List.getD_eq_getElem _ _ hy]
  simp

theorem getD_replicate_lt (a : Rat) {n i : Nat} (h : i < n) (d : Rat) :
    (List.replicate n a).getD i d = a := by
  have hl : i < (List.replicate n a).length := by simpa using h
  rw [List.getD_eq_getElem _ _ hl]
  simp

/-! ## Row-major layout lemmas -/

theorem validIdx_prod_pos {s idx : List Nat} (h : validIdx s idx = true) :
    0 < s.prod := by
  induction s generalizing idx with
  | nil => simp
  | cons d ds ih =>
    cases idx with
    | nil => simp [validIdx] at h
    | cons i is =>
      simp only [validIdx, Bool.and_eq_true, decide_eq_true_eq] at h
      have h1 : 0 < d := Nat.lt_of_le_of_lt (Nat.zero_le i) h.1
      have h2 := ih h.2
      simpa using Nat.mul_pos h1 h2

theorem offset_rm_lt {s idx : List Nat} (h : validIdx s idx = true) :
    offsetOf (rowMajorStrides s) idx < s.prod := by
  induction s generalizing idx with
  | nil =>
    cases idx with
    | nil => simp [offsetOf]
    | cons i is => simp [validIdx] at h
  | cons d ds ih =>
    cases idx with
    | nil => simp [validIdx] at h
    | cons i is =>
      simp only [validIdx, Bool.and_eq_true, decide_eq_true_eq] at h
      have ih' := ih h.2
      have hP : 0 < ds.prod := validIdx_prod_pos h.2
      simp only [rowMajorStrides, offsetOf, List.zipWith_cons_cons, List.sum_cons,
        List.prod_cons]
      calc ds.prod * i + (List.zipWith (· * ·) (rowMajorStrides ds) is).sum
          < ds.prod * i + ds.prod := by
            exact Nat.add_lt_add_left ih' _
        _ = ds.prod * (i + 1) := by ring
        _ ≤ ds.prod * d := Nat.mul_le_mul_left _ h.1
        _ = d * ds.prod := Nat.mul_comm _ _

theorem multiIndex_offset {s idx : List Nat} (h : validIdx s idx = true) :
    multiIndex s (offsetOf (rowMajorStrides s) idx) = idx := by
  induction s generalizing idx with
  | nil =>
    cases idx with
    | nil => simp [multiIndex]
    | cons i is => simp [validIdx] at h
  | cons d ds ih =>
    cases idx with
    | nil => simp [validIdx] at h
    | cons i is =>
      simp only [validIdx, Bool.and_eq_true, decide_eq_true_eq] at h
      have hP : 0 < ds.prod := validIdx_prod_pos h.2
      have hoff : offsetOf (rowMajorStrides ds) is < ds.prod := offset_rm_lt h.2
      have hexp : offsetOf (rowMajorStrides (d :: ds)) (i :: is)
          = offsetOf (rowMajorStrides ds) is + i * ds.prod := by
        simp only [offsetOf, rowMajorStrides, List.zipWith_cons_cons, List.sum_cons]
        ring
      rw [hexp]
      simp only [multiIndex, List.cons.injEq]
      refine ⟨?_, ?_⟩
      · rw [Nat.add_mul_div_right _ _ hP, Nat.div_eq_of_lt hoff, Nat.zero_add]
      · rw [Nat.add_mul_mod_self_right, Nat.mod_eq_of_lt hoff]
        exact ih h.2

theorem validIdx_multiIndex {s : List Nat} {i : Nat} (h : i < s.prod) :
    validIdx s (multiIndex s i) = true := by
  induction s generalizing i with
  | nil => simp [multiIndex, validIdx]
  | cons d ds ih =>
    have hP : 0 < ds.prod := by
      rcases Nat.eq_zero_or_pos ds.prod with h0 | h0
      · simp [List.prod_cons, h0] at h
      · exact h0
    simp only [multiIndex, validIdx, Bool.and_eq_true, decide_eq_true_eq]
    constructor
    · rw [Nat.div_lt_iff_lt_mul hP]
      simpa [List.prod_cons, Nat.mul_comm] using h
    · exact ih (Nat.mod_lt _ hP)

theorem offset_multiIndex {s : List Nat} {i : Nat} (h : i < s.prod) :
    offsetOf (rowMajorStrides s) (multiIndex s i) = i := by
  induction s generalizing i with
  | nil => simp [List.prod_nil] at h; simp [multiIndex, offsetOf, rowMajorStrides, h]
  | cons d ds ih =>
    have hP : 0 < ds.prod := by
      rcases Nat.eq_zero_or_pos ds.prod with h0 | h0
      · simp [List.prod_cons, h0] at h
      · exact h0
    simp only [multiIndex]
    have hexp : offsetOf (rowMajorStrides (d :: ds))
        (i / ds.prod :: multiIndex ds (i % ds.prod))
        = ds.prod * (i / ds.prod)
          + offsetOf (rowMajorStrides ds) (multiIndex ds (i % ds.prod)) := by
      simp only [offsetOf, rowMajorStrides, List.zipWith_cons_cons, List.sum_cons]
    rw [hexp, ih (Nat.mod_lt _ hP)]
    exact Nat.div_add_mod i ds.prod

theorem logicalGet_fastUnary {inp : MArray} (hwf : inp.wf) (outD : Dtype)
    (f : Rat → Rat) {idx : List Nat} (h : validIdx inp.shape idx = true) :
    logicalGet (fastUnary inp outD f) idx = f (logicalGet inp idx) := by
  have hb := hwf.2.2.1 idx h
  simp only [fastUnary, set_unary_output_data, logicalGet]
  exact getD_map_lt f inp.data hb 0 0

theorem logicalGet_unaryG {inp : MArray} (_hwf : inp.wf) (outD : Dtype)
    (f : Rat → Rat) {idx : List Nat} (h : validIdx inp.shape idx = true) :
    logicalGet (unaryG inp outD f) idx = f (logicalGet inp idx) := by
  have hlt : offsetOf (rowMajorStrides inp.shape) idx < inp.shape.prod :=
    offset_rm_lt h
  simp only [unaryG, logicalGet, MArray.size]
  rw [getD_range_map _ hlt]
  rw [multiIndex_offset h]

/-- A vectorized unary fast path produces the same values as the generic
unary engine with the same scalar function. -/
theorem agree_fastUnary_unaryG {inp : MArray} (hwf : inp.wf) (outD : Dtype)
    (f : Rat → Rat) : agree (fastUnary inp outD f) (unaryG inp outD f) := by
  refine ⟨rfl, fun idx h => ?_⟩
  have h' : validIdx inp.shape idx = true := h
  rw [logicalGet_fastUnary hwf outD f h', logicalGet_unaryG hwf outD f h']

/-- The generic (kernel-free) binary engine computes `op` of the two logical
elements at every valid index, whatever structural case is selected. -/
theorem logicalGet_binary_none {a b : MArray} (ha : a.wf) (hb : b.wf)
    (hsh : b.shape = a.shape) (outD : Dtype) (op : Rat → Rat → Rat)
    {idx : List Nat} (h : validIdx a.shape idx = true) :
    logicalGet (binary a b outD op none none none) idx
      = op (logicalGet a idx) (logicalGet b idx) := by
  have hb' : validIdx b.shape idx = true := by rw [hsh]; exact h
  have hboundA : offsetOf a.strides idx < a.data.length := ha.2.2.1 idx h
  have hboundB : offsetOf b.strides idx < b.data.length := hb.2.2.1 idx hb'
  unfold binary binCase
  split_ifs with h1 h2 h3
  · -- scalar-vector
    simp only [Bool.and_eq_true, beq_iff_eq] at h1
    dsimp only
    simp only [withLayout, logicalGet]
    rw [getD_map_lt _ _ hboundB 0 0]
    have h0 : offsetOf a.strides idx = 0 := by omega
    rw [← h0]
  · -- vector-scalar
    simp only [Bool.and_eq_true, beq_iff_eq] at h2
    dsimp only
    simp only [withLayout, logicalGet]
    rw [getD_map_lt _ _ hboundA 0 0]
    have h0 : offsetOf b.strides idx = 0 := by omega
    rw [← h0]
  · -- vector-vector
    simp only [Bool.and_eq_true, beq_iff_eq] at h3
    dsimp only
    simp only [withLayout, logicalGet]
    have hstr : a.strides = b.strides := h3.2
    have hboundB' : offsetOf a.strides idx < b.data.length := by
      rw [hstr]; exact hboundB
    rw [getD_zipWith_lt _ _ _ hboundA hboundB' 0]
    rw [hstr]
  · -- general
    dsimp only
    simp only [freshRowMajor, logicalGet]
    have hlt : offsetOf (rowMajorStrides a.shape) idx < a.shape.prod :=
      offset_rm_lt h
    rw [getD_range_map _ hlt, multiIndex_offset h]

/-- Supplying kernels that compute the same buffers as the generic
per-element application leaves the engine's result unchanged. -/
theorem binary_kernels_eq {a b : MArray} (outD : Dtype)
    (op : Rat → Rat → Rat)
    (sv : Option (Rat → List Rat → List Rat))
    (vs : Option (List Rat → Rat → List Rat))
    (vv : Option (List Rat → List Rat → List Rat))
    (hsv : ∀ k, sv = some k → ∀ s, k s b.data = b.data.map (fun y => op s y))
    (hvs : ∀ k, vs = some k → ∀ s, k a.data s = a.data.map (fun x => op x s))
    (hvv : ∀ k, vv = some k →
      k a.data b.data = List.zipWith op a.data b.data) :
    binary a b outD op sv vs vv = binary a b outD op none none none := by
  unfold binary
  cases hcase : binCase a b <;> dsimp only
  · cases sv with
    | none => rfl
    | some k => dsimp only; rw [hsv k rfl]
  · cases vs with
    | none => rfl
    | some k => dsimp only; rw [hvs k rfl]
  · cases vv with
    | none => rfl
    | some k => dsimp only; rw [hvv k rfl]

/-! ## More list lemmas (for the scan decomposition) -/

theorem getD_append_left {l l' : List Rat} {i : Nat} (h : i < l.length)
    (d : Rat) : (l ++ l').getD i d = l.getD i d := by
  have hl : i < (l ++ l').length := by
    simp only [List.length_append]; omega
  rw [List.getD_eq_getElem _ _ hl, List.getD_eq_getElem _ _ h]
  exact List.getElem_append_left h

theorem getD_append_right (l l' : List Rat) (i : Nat) (d : Rat) :
    (l ++ l').getD (l.length + i) d = l'.getD i d := by
  by_cases h : i < l'.length
  · have hl : l.length + i < (l ++ l').length := by
      simp only [List.length_append]; omega
    rw [List.getD_eq_getElem _ _ hl, List.getD_eq_getElem _ _ h]
    rw [List.getElem_append_right (by omega)]
    congr 1
    omega
  · rw [List.getD_eq_default, List.getD_eq_default]
    · omega
    · simp only [List.length_append]; omega

theorem take_eq_range_map (row : List Rat) {r : Nat} (h : r ≤ row.length) :
    row.take r = (List.range r).map (fun j => row.getD j 0) := by
  induction r with
  | zero => simp
  | succ n ih =>
    have hn : n ≤ row.length := Nat.le_of_succ_le h
    rw [List.range_succ, List.map_append, ← ih hn]
    rw [List.take_succ]
    simp only [List.map_cons, List.map_nil]
    congr 1
    have hlt : n < row.length := h
    rw [List.getD_eq_getElem _ _ hlt]
    simp [List.getElem?_eq_getElem hlt]

theorem drop_eq_range_map (row : List Rat) {k : Nat} (h : k ≤ row.length) :
    row.drop k = (List.range (row.length - k)).map
      (fun t => row.getD (k + t) 0) := by
  induction row generalizing k with
  | nil => simp
  | cons x xs ih =>
    cases k with
    | zero =>
      have h0 : xs = List.map (fun t => xs.getD (0 + t) 0)
          (List.range xs.length) := by
        simpa using ih (Nat.zero_le _)
      simp only [List.drop_zero, Nat.sub_zero, List.length_cons,
        List.range_succ_eq_map, List.map_cons, List.map_map]
      rw [List.cons.injEq]
      refine ⟨by simp, ?_⟩
      conv_lhs => rw [h0]
      apply List.map_congr_left
      intro t _
      simp only [Function.comp_apply]
      have harr : 0 + (t + 1) = (0 + t) + 1 := by omega
      rw [harr, List.getD_cons_succ]
    | succ n =>
      have hn : n ≤ xs.length := by simpa using h
      rw [List.drop_succ_cons, ih hn]
      simp only [List.length_cons, Nat.succ_sub_succ]
      apply List.map_congr_left
      intro t _
      have harr : n + 1 + t = (n + t) + 1 := by omega
      rw [harr, List.getD_cons_succ]

theorem foldl_add_eq_sum (l : List Rat) (init : Rat) :
    l.foldl (· + ·) init = init + l.sum := by
  induction l generalizing init with
  | nil => simp
  | cons x xs ih =>
    simp only [List.foldl_cons, List.sum_cons, ih]
    ring

theorem length_scanRowFwd (s : Rat) (row : List Rat) :
    (scanRowFwd s row).length = row.length := by
  simp [scanRowFwd]

theorem length_scanRowRev (s : Rat) (row : List Rat) :
    (scanRowRev s row).length = row.length := by
  simp [scanRowRev]

/-! ## Row-major layout lemmas for the scanned axis -/

theorem rms_length (s : List Nat) : (rowMajorStrides s).length = s.length := by
  induction s with
  | nil => rfl
  | cons d ds ih => simp [rowMajorStrides, ih]

theorem rms_getD {s : List Nat} {a : Nat} (h : a < s.length) :
    (rowMajorStrides s).getD a 0 = (s.drop (a + 1)).prod := by
  induction s generalizing a with
  | nil => simp at h
  | cons d ds ih =>
    cases a with
    | zero => simp [rowMajorStrides]
    | succ n =>
      have hn : n < ds.length := by simpa using h
      simpa [rowMajorStrides, List.getD_cons_succ] using ih hn

theorem validIdx_getD_lt {s idx : List Nat} (h : validIdx s idx = true)
    {a : Nat} (ha : a < s.length) : idx.getD a 0 < s.getD a 0 := by
  induction s generalizing idx a with
  | nil => simp at ha
  | cons d ds ih =>
    cases idx with
    | nil => simp [validIdx] at h
    | cons i is =>
      simp only [validIdx, Bool.and_eq_true, decide_eq_true_eq] at h
      cases a with
      | zero => simpa using h.1
      | succ n =>
        have hn : n < ds.length := by simpa using ha
        simpa [List.getD_cons_succ] using ih h.2 hn

theorem offset_of_prod_one {s idx : List Nat} (h : validIdx s idx = true)
    (hp : s.prod = 1) : offsetOf (rowMajorStrides s) idx = 0 := by
  induction s generalizing idx with
  | nil =>
    cases idx with
    | nil => rfl
    | cons i is => simp [validIdx] at h
  | cons d ds ih =>
    cases idx with
    | nil => simp [validIdx] at h
    | cons i is =>
      simp only [validIdx, Bool.and_eq_true, decide_eq_true_eq] at h
      obtain ⟨h1, h2⟩ := h
      simp only [List.prod_cons] at hp
      have hd : d = 1 := Nat.dvd_one.mp ⟨ds.prod, hp.symm⟩
      have hds : ds.prod = 1 := Nat.dvd_one.mp ⟨d, by
        rw [Nat.mul_comm]; exact hp.symm⟩
      have hi : i = 0 := by omega
      simp only [rowMajorStrides, offsetOf, List.zipWith_cons_cons,
        List.sum_cons, hi, Nat.mul_zero, Nat.zero_add]
      simpa [offsetOf] using ih h2 hds

theorem dvd_prod_getD {l : List Nat} {a : Nat} (h : a < l.length) :
    l.getD a 0 ∣ l.prod := by
  induction l generalizing a with
  | nil => simp at h
  | cons d ds ih =>
    cases a with
    | zero => simp [List.prod_cons, Dvd.intro]
    | succ n =>
      have hn : n < ds.length := by simpa using h
      simp only [List.getD_cons_succ, List.prod_cons]
      exact Dvd.dvd.mul_left (ih hn) d

theorem getD_take (l : List Rat) : ∀ {n j : Nat}, j < n →
    (l.take n).getD j 0 = l.getD j 0 := by
  induction l with
  | nil => intro n j _; simp
  | cons x xs ih =>
    intro n j hj
    cases n with
    | zero => omega
    | succ m =>
      cases j with
      | zero => rfl
      | succ j' =>
        simp only [List.take_succ_cons, List.getD_cons_succ]
        exact ih (by omega)

theorem getD_drop (l : List Rat) : ∀ (m j : Nat),
    (l.drop m).getD j 0 = l.getD (m + j) 0 := by
  induction l with
  | nil => intro m j; simp
  | cons x xs ih =>
    intro m j
    cases m with
    | zero => simp
    | succ m' =>
      simp only [List.drop_succ_cons]
      rw [ih m' j]
      have : m' + 1 + j = (m' + j) + 1 := by omega
      rw [this, List.getD_cons_succ]

theorem row_getD {xs : List Rat} {m L j : Nat} (hj : j < L) :
    ((xs.drop m).take L).getD j 0 = xs.getD (m + j) 0 := by
  rw [getD_take _ hj, getD_drop]

/-- Layout of a row-contiguous tensor whose scanned axis has unit stride
(equivalently, the dimensions after the axis all have size one): the flat
offset of a valid index splits as `q*L + r` with `r` the axis coordinate and
`L` the axis length, and changing only the axis coordinate moves within the
same length-`L` row of the buffer. -/
theorem scan_axis_layout {s : List Nat} {a : Nat} {idx : List Nat}
    (ha : a < s.length) (htr : (s.drop (a + 1)).prod = 1)
    (h : validIdx s idx = true) :
    idx.getD a 0 = offsetOf (rowMajorStrides s) idx % s.getD a 0 ∧
    ∀ j, j < s.getD a 0 →
      validIdx s (idx.set a j) = true ∧
      offsetOf (rowMajorStrides s) (idx.set a j)
        = offsetOf (rowMajorStrides s) idx / s.getD a 0 * s.getD a 0 + j := by
  induction s generalizing a idx with
  | nil => simp at ha
  | cons d ds ih =>
    cases idx with
    | nil => simp [validIdx] at h
    | cons i is =>
      simp only [validIdx, Bool.and_eq_true, decide_eq_true_eq] at h
      obtain ⟨hi, his⟩ := h
      cases a with
      | zero =>
        have htr' : ds.prod = 1 := by simpa using htr
        have hofft : ∀ m : Nat,
            offsetOf (rowMajorStrides (d :: ds)) (m :: is) = m := by
          intro m
          have h0 : offsetOf (rowMajorStrides ds) is = 0 :=
            offset_of_prod_one his htr'
          have h0' : (List.zipWith (· * ·) (rowMajorStrides ds) is).sum = 0 := by
            simpa [offsetOf] using h0
          simp [offsetOf, rowMajorStrides, h0', htr']
        refine ⟨?_, fun j hj => ⟨?_, ?_⟩⟩
        · rw [hofft i]
          simp only [List.getD_cons_zero]
          exact (Nat.mod_eq_of_lt hi).symm
        · simp only [List.set_cons_zero, validIdx, Bool.and_eq_true,
            decide_eq_true_eq]
          exact ⟨by simpa using hj, his⟩
        · simp only [List.set_cons_zero]
          rw [hofft j, hofft i]
          simp only [List.getD_cons_zero]
          rw [Nat.div_eq_of_lt hi]
          simp
      | succ n =>
        have hn : n < ds.length := by simpa using ha
        have htr' : (ds.drop (n + 1)).prod = 1 := by simpa using htr
        obtain ⟨hcoord, hset⟩ := ih hn htr' his
        have hLpos : 0 < ds.getD n 0 :=
          Nat.lt_of_le_of_lt (Nat.zero_le _) (validIdx_getD_lt his hn)
        obtain ⟨m, hm⟩ := dvd_prod_getD hn
        have hofft : ∀ (js : List Nat),
            offsetOf (rowMajorStrides (d :: ds)) (i :: js)
              = ds.prod * i + offsetOf (rowMajorStrides ds) js := by
          intro js
          simp only [offsetOf, rowMajorStrides, List.zipWith_cons_cons,
            List.sum_cons]
        have hmod : (ds.prod * i + offsetOf (rowMajorStrides ds) is)
            % ds.getD n 0 = offsetOf (rowMajorStrides ds) is % ds.getD n 0 := by
          rw [hm, Nat.mul_assoc]
          exact Nat.mul_add_mod _ _ _
        have hdiv : (ds.prod * i + offsetOf (rowMajorStrides ds) is)
            / ds.getD n 0 = m * i + offsetOf (rowMajorStrides ds) is
              / ds.getD n 0 := by
          rw [hm, Nat.mul_assoc]
          exact Nat.mul_add_div hLpos _ _
        refine ⟨?_, fun j hj => ⟨?_, ?_⟩⟩
        · simp only [List.getD_cons_succ]
          rw [hofft is, hmod]
          exact hcoord
        · simp only [List.set_cons_succ, validIdx, Bool.and_eq_true,
            decide_eq_true_eq]
          exact ⟨hi, (hset j hj).1⟩
        · simp only [List.set_cons_succ, List.getD_cons_succ]
          rw [hofft (is.set n j), hofft is, (hset j hj).2, hdiv, hm]
          ring

/-- Indexing into the fast-path buffer: position `q*L + r` of the
concatenated rows is position `r` of the `q`-th scanned row. -/
theorem scanChunks_getD (rev : Bool) {L : Nat} (_hL : 0 < L) :
    ∀ {count q : Nat} {xs : List Rat}, q < count → L * count ≤ xs.length →
    ∀ {r : Nat}, r < L →
    (scanChunks rev L count xs).getD (q * L + r) 0
      = (if rev then scanRowRev 1 ((xs.drop (q * L)).take L)
         else scanRowFwd 1 ((xs.drop (q * L)).take L)).getD r 0 := by
  intro count
  induction count with
  | zero => intro q xs hq; omega
  | succ c ih =>
    intro q xs hq hlen r hr
    have hexp : L * (c + 1) = L * c + L := by ring
    have hLxs : L ≤ xs.length := by omega
    have hrowlen : (xs.take L).length = L := by
      simp only [List.length_take]
      omega
    have hfl : (if rev then scanRowRev 1 (xs.take L)
        else scanRowFwd 1 (xs.take L)).length = L := by
      cases rev <;>
        simp [length_scanRowFwd, length_scanRowRev, hrowlen]
    cases q with
    | zero =>
      simp only [scanChunks, Nat.zero_mul, Nat.zero_add, List.drop_zero]
      exact getD_append_left (by rw [hfl]; exact hr) 0
    | succ q' =>
      have happ := getD_append_right
        (if rev then scanRowRev 1 (xs.take L) else scanRowFwd 1 (xs.take L))
        (scanChunks rev L c (xs.drop L)) (q' * L + r) 0
      rw [hfl] at happ
      have hidx : (q' + 1) * L + r = L + (q' * L + r) := by ring
      simp only [scanChunks]
      rw [hidx, happ]
      have hlen' : L * c ≤ (xs.drop L).length := by
        simp only [List.length_drop]
        omega
      rw [ih (by omega) hlen' hr]
      have hdd : (xs.drop L).drop (q' * L) = xs.drop ((q' + 1) * L) := by
        rw [List.drop_drop]
        congr 1
        ring
      rw [hdd]

/-- One forward running-sum row equals the fold of the generic exclusive
forward scan over the same row of the buffer. -/
theorem scanRow_fwd_eq_fold (xs : List Rat) (qL L r : Nat) (g : Nat → Rat)
    (hlen : ((xs.drop qL).take L).length = L) (hr : r < L)
    (hg : ∀ j, j < L → g j = xs.getD (qL + j) 0) :
    (scanRowFwd 1 ((xs.drop qL).take L)).getD r 0
      = ((List.range r).map g).foldl (· + ·) 0 := by
  simp only [scanRowFwd]
  rw [hlen, getD_range_map _ hr, one_mul]
  rw [foldl_add_eq_sum, zero_add]
  rw [take_eq_range_map _ (by rw [hlen]; omega)]
  congr 1
  apply List.map_congr_left
  intro j hj
  have hjr : j < r := List.mem_range.mp hj
  rw [row_getD (show j < L by omega), hg j (by omega)]

/-- One reverse running-sum row equals the fold of the generic exclusive
reverse scan over the same row of the buffer. -/
theorem scanRow_rev_eq_fold (xs : List Rat) (qL L r : Nat) (g : Nat → Rat)
    (hlen : ((xs.drop qL).take L).length = L) (hr : r < L)
    (hg : ∀ j, j < L → g j = xs.getD (qL + j) 0) :
    (scanRowRev 1 ((xs.drop qL).take L)).getD r 0
      = (((List.range (L - (r + 1))).map (fun t => r + 1 + t)).map g).foldl
          (· + ·) 0 := by
  simp only [scanRowRev]
  rw [hlen, getD_range_map _ hr, one_mul]
  rw [foldl_add_eq_sum, zero_add, List.map_map]
  rw [drop_eq_range_map _ (by rw [hlen]; omega)]
  rw [hlen]
  congr 1
  apply List.map_congr_left
  intro t ht
  have htlt : t < L - (r + 1) := List.mem_range.mp ht
  simp only [Function.comp_apply]
  rw [row_getD (show r + 1 + t < L by omega), hg _ (by omega)]

/-- The scan fast path agrees with the generic scan on its whole domain: for
a well-formed row-contiguous input whose scanned axis has unit stride, the
buffer of per-row running sums holds exactly the exclusive (forward or
mirrored) prefix sums computed by the generic fallback. -/
theorem scan_fast_agree {inp : MArray} (hwf : inp.wf) (axis : Nat)
    (reverse : Bool) (outD : Dtype) (lae : Rat → Rat → Rat)
    (otherInit : Rat)
    (hrc : inp.flags.row_contiguous = true)
    (hstd : inp.strides.getD axis 0 = 1) :
    agree
      (freshRowMajor inp.shape outD
        (scanChunks reverse (inp.shape.getD axis 0)
          (inp.size / inp.shape.getD axis 0) inp.data))
      (Scan.eval .Sum axis reverse false lae otherInit inp outD) := by
  have hstr : inp.strides = rowMajorStrides inp.shape := hwf.2.1 hrc
  have ha : axis < inp.shape.length := by
    by_contra hcon
    push_neg at hcon
    have hlen : inp.strides.length ≤ axis := by rw [hwf.1]; exact hcon
    have h0 : inp.strides.getD axis 0 = 0 := List.getD_eq_default _ _ hlen
    omega
  have htr : (inp.shape.drop (axis + 1)).prod = 1 := by
    have hrg := rms_getD (s := inp.shape) ha
    rw [← hrg, ← hstr]
    exact hstd
  refine ⟨rfl, fun idx hidx => ?_⟩
  have h : validIdx inp.shape idx = true := hidx
  obtain ⟨hcoord, hset⟩ := scan_axis_layout ha htr h
  have hLpos : 0 < inp.shape.getD axis 0 :=
    Nat.lt_of_le_of_lt (Nat.zero_le _) (validIdx_getD_lt h ha)
  have hovalid : offsetOf (rowMajorStrides inp.shape) idx < inp.shape.prod :=
    offset_rm_lt h
  have hdvd : inp.shape.getD axis 0 ∣ inp.shape.prod := dvd_prod_getD ha
  have hcnt : inp.shape.prod / inp.shape.getD axis 0 * inp.shape.getD axis 0
      = inp.shape.prod := Nat.div_mul_cancel hdvd
  have hq : offsetOf (rowMajorStrides inp.shape) idx / inp.shape.getD axis 0
      < inp.shape.prod / inp.shape.getD axis 0 := by
    rw [Nat.div_lt_iff_lt_mul hLpos]
    omega
  have hdatalen : inp.shape.prod ≤ inp.data.length := by
    have hpos : 0 < inp.shape.prod := validIdx_prod_pos h
    have hv := validIdx_multiIndex
      (s := inp.shape) (i := inp.shape.prod - 1) (by omega)
    have ho := offset_multiIndex
      (s := inp.shape) (i := inp.shape.prod - 1) (by omega)
    have hb := hwf.2.2.1 _ hv
    rw [hstr, ho] at hb
    omega
  have hlenchunks : inp.shape.getD axis 0
      * (inp.shape.prod / inp.shape.getD axis 0) ≤ inp.data.length := by
    calc inp.shape.getD axis 0 * (inp.shape.prod / inp.shape.getD axis 0)
        = inp.shape.prod / inp.shape.getD axis 0 * inp.shape.getD axis 0 :=
          Nat.mul_comm _ _
      _ = inp.shape.prod := hcnt
      _ ≤ _ := hdatalen
  have hrmod : offsetOf (rowMajorStrides inp.shape) idx
      % inp.shape.getD axis 0 < inp.shape.getD axis 0 :=
    Nat.mod_lt _ hLpos
  -- abbreviations used below, written out in full in the statements
  have hrowbound : offsetOf (rowMajorStrides inp.shape) idx
      / inp.shape.getD axis 0 * inp.shape.getD axis 0 + inp.shape.getD axis 0
      ≤ inp.data.length := by
    have h1 : offsetOf (rowMajorStrides inp.shape) idx
        / inp.shape.getD axis 0 + 1
        ≤ inp.shape.prod / inp.shape.getD axis 0 := hq
    have h2 : (offsetOf (rowMajorStrides inp.shape) idx
        / inp.shape.getD axis 0 + 1) * inp.shape.getD axis 0
        ≤ inp.shape.prod / inp.shape.getD axis 0 * inp.shape.getD axis 0 :=
      Nat.mul_le_mul_right _ h1
    calc offsetOf (rowMajorStrides inp.shape) idx
        / inp.shape.getD axis 0 * inp.shape.getD axis 0
          + inp.shape.getD axis 0
        = (offsetOf (rowMajorStrides inp.shape) idx
            / inp.shape.getD axis 0 + 1) * inp.shape.getD axis 0 := by ring
      _ ≤ inp.shape.prod / inp.shape.getD axis 0 * inp.shape.getD axis 0 := h2
      _ = inp.shape.prod := hcnt
      _ ≤ inp.data.length := hdatalen
  have hrowlen : ((inp.data.drop (offsetOf (rowMajorStrides inp.shape) idx
      / inp.shape.getD axis 0 * inp.shape.getD axis 0)).take
        (inp.shape.getD axis 0)).length = inp.shape.getD axis 0 := by
    simp only [List.length_take, List.length_drop]
    omega
  -- the value written by the fast path at this index
  have hLHS : logicalGet (freshRowMajor inp.shape outD
      (scanChunks reverse (inp.shape.getD axis 0)
        (inp.size / inp.shape.getD axis 0) inp.data)) idx
      = (if reverse then
          scanRowRev 1 ((inp.data.drop (offsetOf (rowMajorStrides inp.shape)
            idx / inp.shape.getD axis 0 * inp.shape.getD axis 0)).take
              (inp.shape.getD axis 0))
         else
          scanRowFwd 1 ((inp.data.drop (offsetOf (rowMajorStrides inp.shape)
            idx / inp.shape.getD axis 0 * inp.shape.getD axis 0)).take
              (inp.shape.getD axis 0))).getD
        (offsetOf (rowMajorStrides inp.shape) idx % inp.shape.getD axis 0)
        0 := by
    simp only [freshRowMajor, logicalGet, MArray.size]
    have hdm := Nat.div_add_mod (offsetOf (rowMajorStrides inp.shape) idx)
      (inp.shape.getD axis 0)
    rw [Nat.mul_comm] at hdm
    have hsplit : offsetOf (rowMajorStrides inp.shape) idx
        = offsetOf (rowMajorStrides inp.shape) idx / inp.shape.getD axis 0
            * inp.shape.getD axis 0
          + offsetOf (rowMajorStrides inp.shape) idx
            % inp.shape.getD axis 0 := hdm.symm
    exact (congrArg (fun t =>
      (scanChunks reverse (inp.shape.getD axis 0)
        (inp.shape.prod / inp.shape.getD axis 0) inp.data).getD t 0)
        hsplit).trans
      (scanChunks_getD reverse hLpos hq hlenchunks hrmod)
  -- the value computed by the generic fallback at this index
  have hRHS : logicalGet (Scan.eval .Sum axis reverse false lae otherInit
      inp outD) idx
      = ((scanIdxList reverse false (inp.shape.getD axis 0)
          (idx.getD axis 0)).map
            (fun j => logicalGet inp (idx.set axis j))).foldl (· + ·) 0 := by
    simp only [Scan.eval, freshRowMajor, logicalGet, MArray.size]
    rw [getD_range_map _ hovalid, multiIndex_offset h]
    simp only [scanAt, reduceOpQ, reduceInitQ, logicalGet]
  -- every axis position reads within the same row of the buffer
  have hgval : ∀ j, j < inp.shape.getD axis 0 →
      logicalGet inp (idx.set axis j)
        = inp.data.getD (offsetOf (rowMajorStrides inp.shape) idx
            / inp.shape.getD axis 0 * inp.shape.getD axis 0 + j) 0 := by
    intro j hj
    simp only [logicalGet]
    rw [hstr, (hset j hj).2]
  rw [hLHS, hRHS, ← hcoord]
  have hr : idx.getD axis 0 < inp.shape.getD axis 0 := validIdx_getD_lt h ha
  cases reverse with
  | false =>
    rw [if_neg Bool.false_ne_true]
    rw [show scanIdxList false false (inp.shape.getD axis 0)
        (idx.getD axis 0) = List.range (idx.getD axis 0) from by
      simp [scanIdxList]]
    exact scanRow_fwd_eq_fold inp.data _ _ _ _ hrowlen hr hgval
  | true =>
    rw [if_pos rfl]
    rw [show scanIdxList true false (inp.shape.getD axis 0)
        (idx.getD axis 0)
        = (List.range (inp.shape.getD axis 0 - (idx.getD axis 0 + 1))).map
            (fun t => idx.getD axis 0 + 1 + t) from by
      simp [scanIdxList]]
    exact scanRow_rev_eq_fold inp.data _ _ _ _ hrowlen hr hgval

/-! ## The supplied kernels compute the generic operation -/

theorem zipWith_swap (f : Rat → Rat → Rat) (xs ys : List Rat) :
    List.zipWith (fun y x => f x y) ys xs = List.zipWith f xs ys := by
  induction xs generalizing ys with
  | nil => cases ys <;> rfl
  | cons x xs ih =>
    cases ys with
    | nil => rfl
    | cons y ys => simp only [List.zipWith_cons_cons, ih]

/-- `Add::eval_cpu` equals the kernel-free engine on every input: each
supplied vDSP kernel computes exactly the generic addition. -/
theorem Add_eval_cpu_eq (a b : MArray) (outD : Dtype) :
    Add.eval_cpu a b outD = binary a b outD (· + ·) none none none := by
  unfold Add.eval_cpu
  split_ifs with h1 h2
  · apply binary_kernels_eq
    · intro k hk s
      cases hk
      simp only [vDSP_vsadd]
      exact List.map_congr_left fun x _ => add_comm x s
    · intro k hk s
      cases hk
      rfl
    · intro k hk
      cases hk
      rfl
  · apply binary_kernels_eq
    · intro k hk s
      cases hk
      simp only [vDSP_vsaddi]
      exact List.map_congr_left fun x _ => add_comm x s
    · intro k hk s
      cases hk
      rfl
    · intro k hk
      cases hk
      rfl
  · rfl

/-- `Subtract::eval_cpu` equals the kernel-free engine on every input. -/
theorem Subtract_eval_cpu_eq (a b : MArray) (outD : Dtype) :
    Subtract.eval_cpu a b outD = binary a b outD (· - ·) none none none := by
  unfold Subtract.eval_cpu
  split_ifs with h1 h2
  · apply binary_kernels_eq
    · intro k hk s
      cases hk
      simp only [vDSP_vsmsa]
      exact List.map_congr_left fun x _ => by ring
    · intro k hk s
      cases hk
      simp only [vDSP_vsadd]
      exact List.map_congr_left fun x _ => (sub_eq_add_neg x s).symm
    · intro k hk
      cases hk
      simp only [vDSP_vsub]
      exact zipWith_swap (· - ·) a.data b.data
  · apply binary_kernels_eq
    · intro k hk
      exact absurd hk (by simp)
    · intro k hk s
      cases hk
      simp only [vDSP_vsaddi]
      exact List.map_congr_left fun x _ => (sub_eq_add_neg x s).symm
    · intro k hk
      exact absurd hk (by simp)
  · rfl

/-- `Multiply::eval_cpu` equals the kernel-free engine on every input. -/
theorem Multiply_eval_cpu_eq (a b : MArray) (outD : Dtype) :
    Multiply.eval_cpu a b outD = binary a b outD (· * ·) none none none := by
  unfold Multiply.eval_cpu
  split_ifs with h1
  · apply binary_kernels_eq
    · intro k hk s
      cases hk
      simp only [vDSP_vsmul]
      exact List.map_congr_left fun x _ => mul_comm x s
    · intro k hk s
      cases hk
      rfl
    · intro k hk
      cases hk
      rfl
  · rfl

/-- `Divide::eval_cpu` equals the kernel-free engine on every input: the
integer kernels compute truncating division and the float kernels field
division, exactly as the dtype-indexed generic `x / y`. -/
theorem Divide_eval_cpu_eq (a b : MArray) (outD : Dtype) :
    Divide.eval_cpu a b outD
      = binary a b outD (divScalar a.dtype) none none none := by
  unfold Divide.eval_cpu
  split_ifs with h1 h2
  · have hdt : a.dtype = .int32 := by simpa using h1
    have hds : divScalar a.dtype = intDivQ := by
      funext x y
      rw [hdt]
      rfl
    apply binary_kernels_eq
    · intro k hk
      exact absurd hk (by simp)
    · intro k hk s
      cases hk
      simp only [vDSP_vsdivi, hds]
    · intro k hk
      cases hk
      simp only [vDSP_vdivi, hds]
      exact zipWith_swap intDivQ a.data b.data
  · have hdt : a.dtype = .float32 := by simpa using h2
    have hds : divScalar a.dtype = (· / ·) := by
      funext x y
      rw [hdt]
      rfl
    apply binary_kernels_eq
    · intro k hk s
      cases hk
      simp only [vDSP_svdiv, hds]
    · intro k hk s
      cases hk
      simp only [vDSP_vsdiv, hds]
    · intro k hk
      cases hk
      simp only [vDSP_vdiv, hds]
      exact zipWith_swap (· / ·) a.data b.data
  · rfl

/-- A vector-vector-only kernel is irrelevant whenever the structural case
selected is not vector-vector. -/
theorem binary_vv_only_eq {a b : MArray} (outD : Dtype)
    (op : Rat → Rat → Rat) (k : List Rat → List Rat → List Rat)
    (hnot : binCase a b ≠ .vectorVector) :
    binary a b outD op none none (some k)
      = binary a b outD op none none none := by
  unfold binary
  cases hcase : binCase a b <;> first | rfl | exact absurd hcase hnot

/-! ## Backend-vs-generic refinement -/

theorem agree_refl (x : MArray) : agree x x :=
  ⟨rfl, fun _ _ => rfl⟩

/-- A copied shared buffer reads exactly like its source. -/
theorem logicalGet_copy_shared (inp : MArray) (outD : Dtype)
    (idx : List Nat) :
    logicalGet (copy_shared_buffer inp outD) idx = logicalGet inp idx := rfl

/-- Every logical read of an unsigned well-formed tensor is non-negative. -/
theorem logicalGet_nonneg {a : MArray} (hwf : a.wf)
    (hu : is_unsigned a.dtype = true) (idx : List Nat) :
    0 ≤ logicalGet a idx := by
  unfold logicalGet
  rcases Nat.lt_or_ge (offsetOf a.strides idx) a.data.length with hlt | hge
  · rw [List.getD_eq_getElem _ _ hlt]
    exact (hwf.2.2.2 _ (List.getElem_mem hlt)).2 hu
  · rw [List.getD_eq_default _ _ hge]

/-- `Abs::eval_cpu` agrees with the generic absolute value at every logical
index, on every dtype and layout (fast paths, the unsigned storage-sharing
no-op, and the fallback alike). -/
theorem Abs_agree {a : MArray} (hwf : a.wf) (outD : Dtype) :
    agree (Abs.eval_cpu a outD).out (unaryG a outD (fun x => |x|)) := by
  unfold Abs.eval_cpu
  split_ifs with h1 h2 h3
  · exact agree_fastUnary_unaryG hwf outD _
  · exact agree_fastUnary_unaryG hwf outD _
  · refine ⟨rfl, fun idx hv => ?_⟩
    have hv' : validIdx a.shape idx = true := hv
    rw [logicalGet_copy_shared, logicalGet_unaryG hwf outD _ hv']
    exact (abs_of_nonneg (logicalGet_nonneg hwf h3 idx)).symm
  · exact agree_refl _

/-- The `Negative`/`Square`/`Sqrt` dispatch shape agrees with the generic
unary engine at every logical index. -/
theorem unaryInFloat_agree {a : MArray} (hwf : a.wf) (f : Rat → Rat)
    (outD : Dtype) :
    agree (unaryInFloat.eval_cpu f a outD).out (unaryG a outD f) := by
  unfold unaryInFloat.eval_cpu
  split_ifs with h1
  · exact agree_fastUnary_unaryG hwf outD f
  · exact agree_refl _

/-- The trig/hyperbolic/log dispatch shape agrees with the generic unary
engine at every logical index. -/
theorem unaryOutFloat_agree {a : MArray} (hwf : a.wf) (f : Rat → Rat)
    (outD : Dtype) :
    agree (unaryOutFloat.eval_cpu f a outD).out (unaryG a outD f) := by
  unfold unaryOutFloat.eval_cpu
  split_ifs with h1
  · exact agree_fastUnary_unaryG hwf outD f
  · exact agree_refl _

/-- `AsType::eval_cpu` agrees with the generic element-wise cast at every
logical index: each vectorized conversion computes exactly `castScalar` of
its target dtype. -/
theorem AsType_agree {a : MArray} (hwf : a.wf) (outD : Dtype) :
    agree (AsType.eval_cpu a outD).out (AsType.eval a outD) := by
  unfold AsType.eval_cpu
  split_ifs with h0 h1 h2 h3 h4
  · have ht : outD = .uint32 := by
      simp only [Bool.and_eq_true, beq_iff_eq] at h1
      exact h1.2
    have hfn : vDSP_vfix = castScalar outD := by
      funext q
      rw [ht]
      rfl
    rw [hfn]
    exact agree_fastUnary_unaryG hwf outD _
  · have ht : outD = .int32 := by
      simp only [Bool.and_eq_true, beq_iff_eq] at h2
      exact h2.2
    have hfn : vDSP_vfix = castScalar outD := by
      funext q
      rw [ht]
      rfl
    rw [hfn]
    exact agree_fastUnary_unaryG hwf outD _
  · have ht : outD = .float32 := by
      simp only [Bool.and_eq_true, beq_iff_eq] at h3
      exact h3.2
    have hfn : vDSP_vflt = castScalar outD := by
      funext q
      rw [ht]
      rfl
    rw [hfn]
    exact agree_fastUnary_unaryG hwf outD _
  · have ht : outD = .float32 := by
      simp only [Bool.and_eq_true, beq_iff_eq] at h4
      exact h4.2
    have hfn : vDSP_vflt = castScalar outD := by
      funext q
      rw [ht]
      rfl
    rw [hfn]
    exact agree_fastUnary_unaryG hwf outD _
  · exact agree_refl _
  · exact agree_refl _

/-- `Full::eval_cpu` agrees with the generic broadcast copy at every logical
index: with a single-element source, every logical read of the source is its
unique value. -/
theorem Full_agree {a : MArray} (hwf : a.wf) (outD : Dtype) :
    agree (Full.eval_cpu a outD).out (Full.eval a outD) := by
  unfold Full.eval_cpu
  split_ifs with h1
  · simp only [Bool.and_eq_true, beq_iff_eq] at h1
    have hlen : a.data.length = 1 := by
      simpa [MArray.data_size] using h1.1
    refine ⟨rfl, fun idx hv => ?_⟩
    have hv' : validIdx a.shape idx = true := hv
    have hofflt : offsetOf (rowMajorStrides a.shape) idx < a.shape.prod :=
      offset_rm_lt hv'
    have hLHS : logicalGet (freshRowMajor a.shape outD
        (List.replicate a.size (a.data.getD 0 0))) idx
        = a.data.getD 0 0 := by
      simp only [freshRowMajor, logicalGet, MArray.size]
      exact getD_replicate_lt _ hofflt 0
    have hRHS : logicalGet (Full.eval a outD) idx = logicalGet a idx := by
      unfold Full.eval
      exact logicalGet_unaryG hwf outD _ hv'
    rw [hLHS, hRHS]
    have hb : offsetOf a.strides idx < a.data.length := hwf.2.2.1 idx hv'
    have h0 : offsetOf a.strides idx = 0 := by omega
    simp only [logicalGet, h0]
  · exact agree_refl _

/-- `Scan::eval_cpu` agrees with the generic scan at every logical index. -/
theorem Scan_agree {a : MArray} (hwf : a.wf) (rt : ReduceType) (axis : Nat)
    (reverse inclusive : Bool) (lae : Rat → Rat → Rat) (otherInit : Rat)
    (outD : Dtype) :
    agree (Scan.eval_cpu rt axis reverse inclusive lae otherInit a outD).out
      (Scan.eval rt axis reverse inclusive lae otherInit a outD) := by
  unfold Scan.eval_cpu
  split_ifs with h1
  · simp only [Bool.and_eq_true, beq_iff_eq, Bool.not_eq_eq_eq_not,
      Bool.not_true] at h1
    obtain ⟨⟨⟨⟨hrt, houtD⟩, hrc⟩, hstd⟩, hincl⟩ := h1
    rw [hrt, hincl]
    exact scan_fast_agree hwf axis reverse outD lae otherInit hrc
      (by simpa using hstd)
  · exact agree_refl _

/-- The buffer written by `vvpowf` on the Power fast path, read through any
row-major layout, agrees with the generic binary power (the outcome is the
same whichever donation branch provided storage, strides and flags). -/
theorem Power_fast_out_agree {a b : MArray} (ha : a.wf) (hb : b.wf)
    (hsh : b.shape = a.shape) (powf : Rat → Rat → Rat) (outD : Dtype)
    (harc : a.flags.row_contiguous = true)
    (hbrc : b.flags.row_contiguous = true)
    (st : List Nat) (hst : st = rowMajorStrides a.shape)
    (fl : Flags) (stor : Storage) (don : Bool) :
    agree { dtype := outD, shape := a.shape, strides := st, flags := fl,
            data := vvpowf powf b.data a.data, storage := stor,
            donatable := don }
      (binary a b outD powf none none none) := by
  have hastr : a.strides = rowMajorStrides a.shape := ha.2.1 harc
  have hbstr : b.strides = rowMajorStrides a.shape := by
    rw [hb.2.1 hbrc, hsh]
  have hbsh : (binary a b outD powf none none none).shape = a.shape := by
    unfold binary
    cases binCase a b <;> rfl
  refine ⟨hbsh.symm, fun idx hv => ?_⟩
  have hv' : validIdx a.shape idx = true := hv
  have hvb : validIdx b.shape idx = true := by rw [hsh]; exact hv'
  have hbA : offsetOf a.strides idx < a.data.length := ha.2.2.1 idx hv'
  have hbB : offsetOf b.strides idx < b.data.length := hb.2.2.1 idx hvb
  have hbA' : offsetOf (rowMajorStrides a.shape) idx < a.data.length := by
    rw [← hastr]; exact hbA
  have hbB' : offsetOf (rowMajorStrides a.shape) idx < b.data.length := by
    rw [← hbstr]; exact hbB
  rw [logicalGet_binary_none ha hb hsh outD powf hv']
  simp only [logicalGet, hst]
  simp only [vvpowf]
  rw [getD_zipWith_lt _ _ _ hbB' hbA' 0]
  rw [hastr, hbstr]

/-- `Power::eval_cpu` agrees with the generic binary power at every logical
index, whichever donation branch provides the output's storage. -/
theorem Power_agree {a b : MArray} (ha : a.wf) (hb : b.wf)
    (hsh : b.shape = a.shape) (powf : Rat → Rat → Rat) (outD : Dtype) :
    agree (Power.eval_cpu powf a b outD).out
      (binary a b outD powf none none none) := by
  unfold Power.eval_cpu
  split_ifs with h1 h2 h3
  · simp only [Bool.and_eq_true, beq_iff_eq] at h1
    exact Power_fast_out_agree ha hb hsh powf outD h1.1.2 h1.2
      a.strides (ha.2.1 h1.1.2) a.flags a.storage false
  · simp only [Bool.and_eq_true, beq_iff_eq] at h1
    exact Power_fast_out_agree ha hb hsh powf outD h1.1.2 h1.2
      b.strides (by rw [hb.2.1 h1.2, hsh]) b.flags b.storage false
  · simp only [Bool.and_eq_true, beq_iff_eq] at h1
    exact Power_fast_out_agree ha hb hsh powf outD h1.1.2 h1.2
      (rowMajorStrides a.shape) rfl contigFlags .fresh false
  · exact agree_refl _

/-- `Remainder::eval_cpu` equals the kernel-free engine whenever its float32
vector-vector kernel (which computes IEEE remainder instead of the generic
`fmod` — see the Remainder code-bug analysis) is not the selected case. -/
theorem Remainder_eval_cpu_eq (a b : MArray) (outD : Dtype)
    (hnotvv : a.dtype = .float32 → binCase a b ≠ .vectorVector) :
    Remainder.eval_cpu a b outD
      = binary a b outD (RemainderFn a.dtype) none none none := by
  unfold Remainder.eval_cpu
  split_ifs with h1
  · exact binary_vv_only_eq outD _ _ (hnotvv (by simpa using h1))
  · rfl

theorem inputsWf_pair {a b : MArray} (h : inputsWf [a, b]) :
    a.wf ∧ b.wf ∧ b.shape = a.shape := by
  obtain ⟨ha, hrest⟩ := h
  have hb := hrest b (by simp)
  exact ⟨ha, hb.1, hb.2⟩

/-- The optimized CPU backend refines the generic evaluation: on well-formed
inputs the two entry points have the same outcome — identical values at
every logical index when both succeed, and failure exactly together — and
the only errors at matching arity are the documented invalid-dtype errors
of Exp and Log1p on non-floating outputs, which the generic path raises
identically. The single excluded input family is Remainder's float32
vector-vector kernel, a code slip analysed with the Remainder claim. -/
theorem evalCpu_refines_generic (op : CpuOp) (inputs : List MArray)
    (outD : Dtype) (hwf : inputsWf inputs)
    (hker : remainderKernelHit op inputs = false) :
    sameResult (evalCpu op inputs outD) (evalGeneric op inputs outD)
    ∧ ∀ e, evalCpu op inputs outD = .error e →
        (∃ n, arity op = some n ∧ inputs.length ≠ n) ∨
        (isFpRestricted op = true ∧ is_floating_point outD = false) := by
  cases op with
  | abs =>
    rcases inputs with _ | ⟨a, _ | ⟨b, rest⟩⟩
    · exact ⟨trivial, fun e _ => Or.inl ⟨1, rfl, by simp⟩⟩
    · refine ⟨?_, fun e he => by simp [evalCpu] at he⟩
      show agree (Abs.eval_cpu a outD).out (unaryG a outD (fun x => |x|))
      exact Abs_agree hwf.1 outD
    · exact ⟨trivial, fun e _ => Or.inl ⟨1, rfl, by
        simp only [List.length_cons]; omega⟩⟩
  | add =>
    rcases inputs with _ | ⟨a, _ | ⟨b, _ | ⟨c, rest⟩⟩⟩
    · exact ⟨trivial, fun e _ => Or.inl ⟨2, rfl, by simp⟩⟩
    · exact ⟨trivial, fun e _ => Or.inl ⟨2, rfl, by simp⟩⟩
    · refine ⟨?_, fun e he => by simp [evalCpu] at he⟩
      show agree (Add.eval_cpu a b outD)
        (binary a b outD (· + ·) none none none)
      rw [Add_eval_cpu_eq]
      exact agree_refl _
    · exact ⟨trivial, fun e _ => Or.inl ⟨2, rfl, by
        simp only [List.length_cons]; omega⟩⟩
  | subtract =>
    rcases inputs with _ | ⟨a, _ | ⟨b, _ | ⟨c, rest⟩⟩⟩
    · exact ⟨trivial, fun e _ => Or.inl ⟨2, rfl, by simp⟩⟩
    · exact ⟨trivial, fun e _ => Or.inl ⟨2, rfl, by simp⟩⟩
    · refine ⟨?_, fun e he => by simp [evalCpu] at he⟩
      show agree (Subtract.eval_cpu a b outD)
        (binary a b outD (· - ·) none none none)
      rw [Subtract_eval_cpu_eq]
      exact agree_refl _
    · exact ⟨trivial, fun e _ => Or.inl ⟨2, rfl, by
        simp only [List.length_cons]; omega⟩⟩
  | multiply =>
    rcases inputs with _ | ⟨a, _ | ⟨b, _ | ⟨c, rest⟩⟩⟩
    · exact ⟨trivial, fun e _ => Or.inl ⟨2, rfl, by simp⟩⟩
    · exact ⟨trivial, fun e _ => Or.inl ⟨2, rfl, by simp⟩⟩
    · refine ⟨?_, fun e he => by simp [evalCpu] at he⟩
      show agree (Multiply.eval_cpu a b outD)
        (binary a b outD (· * ·) none none none)
      rw [Multiply_eval_cpu_eq]
      exact agree_refl _
    · exact ⟨trivial, fun e _ => Or.inl ⟨2, rfl, by
        simp only [List.length_cons]; omega⟩⟩
  | divide =>
    rcases inputs with _ | ⟨a, _ | ⟨b, _ | ⟨c, rest⟩⟩⟩
    · exact ⟨trivial, fun e _ => Or.inl ⟨2, rfl, by simp⟩⟩
    · exact ⟨trivial, fun e _ => Or.inl ⟨2, rfl, by simp⟩⟩
    · refine ⟨?_, fun e he => by simp [evalCpu] at he⟩
      show agree (Divide.eval_cpu a b outD)
        (binary a b outD (divScalar a.dtype) none none none)
      rw [Divide_eval_cpu_eq]
      exact agree_refl _
    · exact ⟨trivial, fun e _ => Or.inl ⟨2, rfl, by
        simp only [List.length_cons]; omega⟩⟩
  | remainder =>
    rcases inputs with _ | ⟨a, _ | ⟨b, _ | ⟨c, rest⟩⟩⟩
    · exact ⟨trivial, fun e _ => Or.inl ⟨2, rfl, by simp⟩⟩
    · exact ⟨trivial, fun e _ => Or.inl ⟨2, rfl, by simp⟩⟩
    · have hnot : a.dtype = .float32 → binCase a b ≠ .vectorVector := by
        intro hdt hvv
        simp [remainderKernelHit, hdt, hvv] at hker
      refine ⟨?_, fun e he => by simp [evalCpu] at he⟩
      show agree (Remainder.eval_cpu a b outD)
        (binary a b outD (RemainderFn a.dtype) none none none)
      rw [Remainder_eval_cpu_eq a b outD hnot]
      exact agree_refl _
    · exact ⟨trivial, fun e _ => Or.inl ⟨2, rfl, by
        simp only [List.length_cons]; omega⟩⟩
  | power f =>
    rcases inputs with _ | ⟨a, _ | ⟨b, _ | ⟨c, rest⟩⟩⟩
    · exact ⟨trivial, fun e _ => Or.inl ⟨2, rfl, by simp⟩⟩
    · exact ⟨trivial, fun e _ => Or.inl ⟨2, rfl, by simp⟩⟩
    · obtain ⟨ha, hb, hsh⟩ := inputsWf_pair hwf
      refine ⟨?_, fun e he => by simp [evalCpu] at he⟩
      show agree (Power.eval_cpu f a b outD).out
        (binary a b outD f none none none)
      exact Power_agree ha hb hsh f outD
    · exact ⟨trivial, fun e _ => Or.inl ⟨2, rfl, by
        simp only [List.length_cons]; omega⟩⟩
  | expOp f =>
    rcases inputs with _ | ⟨a, _ | ⟨b, rest⟩⟩
    · exact ⟨trivial, fun e _ => Or.inl ⟨1, rfl, by simp⟩⟩
    · constructor
      · show sameResult (Exp.eval_cpu f a outD) (unary_fp a outD f)
        unfold Exp.eval_cpu unary_fp
        split_ifs with h1 h2
        · show agree (fastUnary a outD f) (unaryG a outD f)
          exact agree_fastUnary_unaryG hwf.1 outD f
        · simp only [Bool.and_eq_true, beq_iff_eq] at h1
          rw [h1.1] at h2
          simp [is_floating_point] at h2
        · show agree (unaryG a outD f) (unaryG a outD f)
          exact agree_refl _
        · trivial
      · intro e he
        simp only [evalCpu] at he
        unfold Exp.eval_cpu unary_fp at he
        split_ifs at he with h1 h2
        · exact Except.noConfusion he
        · exact Or.inr ⟨rfl, by simpa using h2⟩
    · exact ⟨trivial, fun e _ => Or.inl ⟨1, rfl, by
        simp only [List.length_cons]; omega⟩⟩
  | log1pOp f =>
    rcases inputs with _ | ⟨a, _ | ⟨b, rest⟩⟩
    · exact ⟨trivial, fun e _ => Or.inl ⟨1, rfl, by simp⟩⟩
    · constructor
      · show sameResult (Log1p.eval_cpu f a outD) (unary_fp a outD f)
        unfold Log1p.eval_cpu unary_fp
        split_ifs with h1 h2
        · show agree (fastUnary a outD f) (unaryG a outD f)
          exact agree_fastUnary_unaryG hwf.1 outD f
        · simp only [Bool.and_eq_true, beq_iff_eq] at h1
          rw [h1.1] at h2
          simp [is_floating_point] at h2
        · show agree (unaryG a outD f) (unaryG a outD f)
          exact agree_refl _
        · trivial
      · intro e he
        simp only [evalCpu] at he
        unfold Log1p.eval_cpu unary_fp at he
        split_ifs at he with h1 h2
        · exact Except.noConfusion he
        · exact Or.inr ⟨rfl, by simpa using h2⟩
    · exact ⟨trivial, fun e _ => Or.inl ⟨1, rfl, by
        simp only [List.length_cons]; omega⟩⟩
  | uOutFloat f =>
    rcases inputs with _ | ⟨a, _ | ⟨b, rest⟩⟩
    · exact ⟨trivial, fun e _ => Or.inl ⟨1, rfl, by simp⟩⟩
    · refine ⟨?_, fun e he => by simp [evalCpu] at he⟩
      show agree (unaryOutFloat.eval_cpu f a outD).out (unaryG a outD f)
      exact unaryOutFloat_agree hwf.1 f outD
    · exact ⟨trivial, fun e _ => Or.inl ⟨1, rfl, by
        simp only [List.length_cons]; omega⟩⟩
  | uInFloat f =>
    rcases inputs with _ | ⟨a, _ | ⟨b, rest⟩⟩
    · exact ⟨trivial, fun e _ => Or.inl ⟨1, rfl, by simp⟩⟩
    · refine ⟨?_, fun e he => by simp [evalCpu] at he⟩
      show agree (unaryInFloat.eval_cpu f a outD).out (unaryG a outD f)
      exact unaryInFloat_agree hwf.1 f outD
    · exact ⟨trivial, fun e _ => Or.inl ⟨1, rfl, by
        simp only [List.length_cons]; omega⟩⟩
  | asType =>
    rcases inputs with _ | ⟨a, _ | ⟨b, rest⟩⟩
    · exact ⟨trivial, fun e _ => Or.inl ⟨1, rfl, by simp⟩⟩
    · refine ⟨?_, fun e he => by simp [evalCpu] at he⟩
      show agree (AsType.eval_cpu a outD).out (AsType.eval a outD)
      exact AsType_agree hwf.1 outD
    · exact ⟨trivial, fun e _ => Or.inl ⟨1, rfl, by
        simp only [List.length_cons]; omega⟩⟩
  | scanOp rt ax rev incl lae oi =>
    rcases inputs with _ | ⟨a, _ | ⟨b, rest⟩⟩
    · exact ⟨trivial, fun e _ => Or.inl ⟨1, rfl, by simp⟩⟩
    · refine ⟨?_, fun e he => by simp [evalCpu] at he⟩
      show agree (Scan.eval_cpu rt ax rev incl lae oi a outD).out
        (Scan.eval rt ax rev incl lae oi a outD)
      exact Scan_agree hwf.1 rt ax rev incl lae oi outD
    · exact ⟨trivial, fun e _ => Or.inl ⟨1, rfl, by
        simp only [List.length_cons]; omega⟩⟩
  | full =>
    rcases inputs with _ | ⟨a, _ | ⟨b, rest⟩⟩
    · exact ⟨trivial, fun e _ => Or.inl ⟨1, rfl, by simp⟩⟩
    · refine ⟨?_, fun e he => by simp [evalCpu] at he⟩
      show agree (Full.eval_cpu a outD).out (Full.eval a outD)
      exact Full_agree hwf.1 outD
    · exact ⟨trivial, fun e _ => Or.inl ⟨1, rfl, by
        simp only [List.length_cons]; omega⟩⟩
  | defaulted g =>
    refine ⟨?_, fun e he => by simp [evalCpu] at he⟩
    show agree (g inputs outD) (g inputs outD)
    exact agree_refl _

/-! ## Concrete input helpers -/

theorem valueOk_float32 (q : Rat) : valueOk .float32 q :=
  ⟨fun h => by simp [is_integral_cpp] at h,
    fun h => by simp [is_unsigned] at h⟩

theorem mk1D_wf (d : Dtype) (xs : List Rat) (sid : Nat) (don : Bool)
    (hvals : ∀ q ∈ xs, valueOk d q) : (mk1D d xs sid don).wf := by
  refine ⟨rfl, fun _ => rfl, ?_, hvals⟩
  intro idx hv
  cases idx with
  | nil => simp [validIdx, mk1D] at hv
  | cons i is =>
    cases is with
    | nil =>
      simp only [mk1D, validIdx, Bool.and_eq_true, decide_eq_true_eq] at hv ⊢
      simpa [offsetOf] using hv.1
    | cons j js => simp [validIdx, mk1D] at hv

/-! ## Claim theorems -/

/-- C2: every operation bound in `no_metal/primitives.cpp` — Matmul,
QuantizedMatmul and all elementwise and reduction operations included —
unconditionally fails on any inputs with a runtime error whose message
starts with the operation's name, and no output is produced. -/
theorem C2_no_gpu_backend (op : GpuOp) (inputs : List MArray) :
    eval_gpu op inputs
      = Except.error (gpuOpName op ++ " has no GPU implementation.")
    ∧ (∀ outs, eval_gpu op inputs ≠ Except.ok outs) :=
  ⟨rfl, fun _ h => Except.noConfusion h⟩

/-- C9: for every tensor of unsigned-integer dtype, Abs returns an output
sharing the input's storage with contents unchanged, whatever the input's
contiguity or donatability: the branch is `copy_shared_buffer`, not the
donation rule. -/
theorem C9_abs_unsigned_noop (t : MArray) (outD : Dtype)
    (hu : is_unsigned t.dtype = true) :
    (Abs.eval_cpu t outD).out.storage = t.storage
    ∧ (Abs.eval_cpu t outD).out.data = t.data
    ∧ (Abs.eval_cpu t outD).out = copy_shared_buffer t outD := by
  have h1 : (t.dtype == Dtype.float32) = false := by
    cases hd : t.dtype <;> simp_all [is_unsigned]
  have h2 : (t.dtype == Dtype.int32) = false := by
    cases hd : t.dtype <;> simp_all [is_unsigned]
  unfold Abs.eval_cpu
  rw [if_neg (by rw [h1]; simp), if_neg (by rw [h2]; simp), if_pos hu]
  exact ⟨rfl, rfl, rfl⟩

theorem C9_witness :
    is_unsigned tUns.dtype = true
    ∧ ((Abs.eval_cpu tUns .uint32).out.storage = tUns.storage
      ∧ (Abs.eval_cpu tUns .uint32).out.data = tUns.data
      ∧ (Abs.eval_cpu tUns .uint32).out = copy_shared_buffer tUns .uint32) :=
  ⟨by decide, C9_abs_unsigned_noop tUns .uint32 (by decide)⟩

/-- C5: on the fast paths of Abs, Negative, Square and Sqrt (contiguous
float32 input), the output's storage is exactly the §4.1 donation decision:
the input's own storage iff the input is donatable and the itemsizes match,
else a fresh block, distinct from the input's. -/
theorem C5_unary_donation (t : MArray) (outD : Dtype) (sid : Nat)
    (sqrtf : Rat → Rat) (recip : Bool)
    (hdt : t.dtype = .float32) (hc : t.flags.contiguous = true)
    (hst : t.storage = .shared sid) :
    ((Abs.eval_cpu t outD).out.storage = donationStorage t outD
      ∧ (Negative.eval_cpu t outD).out.storage = donationStorage t outD
      ∧ (Square.eval_cpu t outD).out.storage = donationStorage t outD
      ∧ (Sqrt.eval_cpu sqrtf recip t outD).out.storage
          = donationStorage t outD)
    ∧ (t.donatable = true ∧ t.itemsize = outD.itemsize →
        donationStorage t outD = t.storage)
    ∧ (¬(t.donatable = true ∧ t.itemsize = outD.itemsize) →
        donationStorage t outD = .fresh
        ∧ donationStorage t outD ≠ t.storage) := by
  have hcond : (t.dtype == Dtype.float32 && t.flags.contiguous) = true := by
    rw [hdt, hc]
    rfl
  refine ⟨⟨?_, ?_, ?_, ?_⟩, ?_, ?_⟩
  · unfold Abs.eval_cpu
    rw [if_pos hcond]
    rfl
  · unfold Negative.eval_cpu unaryInFloat.eval_cpu
    rw [if_pos hcond]
    rfl
  · unfold Square.eval_cpu unaryInFloat.eval_cpu
    rw [if_pos hcond]
    rfl
  · unfold Sqrt.eval_cpu unaryInFloat.eval_cpu
    rw [if_pos hcond]
    rfl
  · intro hdon
    unfold donationStorage
    rw [if_pos (by rw [hdon.1, hdon.2]; simp)]
  · intro hnot
    have hfalse : (t.donatable && (t.itemsize == outD.itemsize)) = false := by
      cases hbv : (t.donatable && (t.itemsize == outD.itemsize)) with
      | false => rfl
      | true =>
        simp only [Bool.and_eq_true, beq_iff_eq] at hbv
        exact absurd hbv hnot
    unfold donationStorage
    rw [if_neg (by rw [hfalse]; simp)]
    rw [hst]
    exact ⟨rfl, fun h => Storage.noConfusion h⟩

theorem C5_witness :
    (tDon.dtype = .float32 ∧ tDon.flags.contiguous = true
      ∧ tDon.storage = .shared 7)
    ∧ (Abs.eval_cpu tDon .float32).out.storage = donationStorage tDon .float32
    ∧ donationStorage tDon .float32 = tDon.storage
    ∧ (Negative.eval_cpu tNoDon .float32).out.storage
        = donationStorage tNoDon .float32
    ∧ donationStorage tNoDon .float32 = .fresh
    ∧ donationStorage tNoDon .float32 ≠ tNoDon.storage := by
  have h1 := C5_unary_donation tDon .float32 7 (fun x => x) false rfl rfl rfl
  have h2 := C5_unary_donation tNoDon .float32 7 (fun x => x) false rfl rfl rfl
  exact ⟨⟨rfl, rfl, rfl⟩, h1.1.1, h1.2.1 (by decide),
    h2.1.2.1, (h2.2.2 (by decide)).1, (h2.2.2 (by decide)).2⟩

/-- C10: the scan fast path always obtains output storage by fresh
allocation — never donating or aliasing, even from a donatable input of
matching itemsize — so the input's storage identity and contents are
unchanged by the evaluation. -/
theorem C10_scan_fresh_storage (rt : ReduceType) (axis : Nat)
    (reverse inclusive : Bool) (lae : Rat → Rat → Rat) (oi : Rat)
    (t : MArray) (outD : Dtype) (sid : Nat)
    (hfast : (rt == ReduceType.Sum && outD == Dtype.float32 &&
        t.flags.row_contiguous && t.strides.getD axis 0 == 1 &&
        !inclusive) = true)
    (hst : t.storage = .shared sid) :
    (Scan.eval_cpu rt axis reverse inclusive lae oi t outD).out.storage
        = .fresh
    ∧ (∀ i, (Scan.eval_cpu rt axis reverse inclusive lae oi t outD).out.storage
        ≠ .shared i)
    ∧ (Scan.eval_cpu rt axis reverse inclusive lae oi t outD).out.storage
        ≠ t.storage
    ∧ bufferAfter t (Scan.eval_cpu rt axis reverse inclusive lae oi t outD).out
        = t.data := by
  unfold Scan.eval_cpu
  rw [if_pos hfast]
  refine ⟨rfl, fun i h => Storage.noConfusion h, ?_, ?_⟩
  · rw [hst]
    exact fun h => Storage.noConfusion h
  · unfold bufferAfter
    rw [if_neg (by rw [hst]; exact fun h => Storage.noConfusion h)]

theorem C10_witness :
    ((ReduceType.Sum == ReduceType.Sum && Dtype.float32 == Dtype.float32 &&
        (mk1D .float32 [1, 2, 3, 4] 3 true).flags.row_contiguous &&
        (mk1D .float32 [1, 2, 3, 4] 3 true).strides.getD 0 0 == 1 &&
        !false) = true)
    ∧ (mk1D .float32 [1, 2, 3, 4] 3 true).donatable = true
    ∧ (mk1D .float32 [1, 2, 3, 4] 3 true).itemsize = Dtype.float32.itemsize
    ∧ (Scan.eval_cpu .Sum 0 false false (fun x _ => x) 0
        (mk1D .float32 [1, 2, 3, 4] 3 true) .float32).out.storage = .fresh
    ∧ bufferAfter (mk1D .float32 [1, 2, 3, 4] 3 true)
        (Scan.eval_cpu .Sum 0 false false (fun x _ => x) 0
          (mk1D .float32 [1, 2, 3, 4] 3 true) .float32).out
        = (mk1D .float32 [1, 2, 3, 4] 3 true).data := by
  have h := C10_scan_fresh_storage .Sum 0 false false (fun x _ => x) 0
    (mk1D .float32 [1, 2, 3, 4] 3 true) .float32 3 (by decide) rfl
  exact ⟨by decide, rfl, rfl, h.1, h.2.2.2⟩

/-- C4: Power's fast path applies exactly when the output dtype is float32
and both operands are row-contiguous; within it output storage is donated
from `a` when `a` is donatable with the output's itemsize, else from `b`
under the same test, else freshly allocated; the buffer is written by
`vvpowf` with the exponent operand `b` passed first and the base `a`
second, and the computed value at every valid index is `powf a b` — first
operand the base, second the exponent. -/
theorem C4_power (powf : Rat → Rat → Rat) (a b : MArray) (outD : Dtype) :
    ((Power.eval_cpu powf a b outD).fast = true ↔
      (outD = .float32 ∧ a.flags.row_contiguous = true
        ∧ b.flags.row_contiguous = true))
    ∧ ((outD == Dtype.float32 && a.flags.row_contiguous
          && b.flags.row_contiguous) = true →
        ((Power.eval_cpu powf a b outD).out.storage =
            (if a.donatable && (a.itemsize == outD.itemsize) then a.storage
             else if b.donatable && (b.itemsize == outD.itemsize) then
               b.storage
             else .fresh))
        ∧ (Power.eval_cpu powf a b outD).out.data
            = vvpowf powf b.data a.data)
    ∧ (∀ y x : List Rat,
        vvpowf powf y x = List.zipWith (fun yi xi => powf xi yi) y x)
    ∧ (a.wf → b.wf → b.shape = a.shape →
        ∀ idx, validIdx a.shape idx = true →
          logicalGet (Power.eval_cpu powf a b outD).out idx
            = powf (logicalGet a idx) (logicalGet b idx)) := by
  refine ⟨?_, ?_, fun y x => rfl, ?_⟩
  · unfold Power.eval_cpu
    split_ifs with h1 h2 h3
    · simp only [Bool.and_eq_true, beq_iff_eq] at h1
      exact ⟨fun _ => ⟨h1.1.1, h1.1.2, h1.2⟩, fun _ => rfl⟩
    · simp only [Bool.and_eq_true, beq_iff_eq] at h1
      exact ⟨fun _ => ⟨h1.1.1, h1.1.2, h1.2⟩, fun _ => rfl⟩
    · simp only [Bool.and_eq_true, beq_iff_eq] at h1
      exact ⟨fun _ => ⟨h1.1.1, h1.1.2, h1.2⟩, fun _ => rfl⟩
    · constructor
      · intro hft
        exact hft.elim
      · intro hcond
        exact absurd (show (outD == Dtype.float32 && a.flags.row_contiguous
            && b.flags.row_contiguous) = true by
          rw [hcond.1, hcond.2.1, hcond.2.2]
          rfl) h1
  · intro hcond
    unfold Power.eval_cpu
    rw [if_pos hcond]
    split_ifs with h2 h3 <;> exact ⟨rfl, rfl⟩
  · intro ha hb hsh idx hv
    have hoshape : (Power.eval_cpu powf a b outD).out.shape = a.shape := by
      unfold Power.eval_cpu
      split_ifs
      · rfl
      · rfl
      · rfl
      · unfold binary
        cases binCase a b <;> rfl
    have hv' : validIdx (Power.eval_cpu powf a b outD).out.shape idx
        = true := by
      rw [hoshape]
      exact hv
    have hag := Power_agree ha hb hsh powf outD
    rw [hag.2 idx hv']
    exact logicalGet_binary_none ha hb hsh outD powf hv

theorem C4_witness :
    (Power.eval_cpu (fun x y => x * y) aPow bPow .float32).out.storage
        = aPow.storage
    ∧ (Power.eval_cpu (fun x y => x * y) aPow bPow .float32).out.data
        = vvpowf (fun x y => x * y) bPow.data aPow.data
    ∧ logicalGet (Power.eval_cpu (fun x y => x * y) aPow bPow .float32).out
        [0] = (fun x y => x * y) (logicalGet aPow [0])
          (logicalGet bPow [0]) := by
  have h := C4_power (fun x y => x * y) aPow bPow .float32
  refine ⟨?_, (h.2.1 (by decide)).2,
    h.2.2.2 (mk1D_wf _ _ _ _ (fun q _ => valueOk_float32 q))
      (mk1D_wf _ _ _ _ (fun q _ => valueOk_float32 q))
      rfl [0] (by decide)⟩
  rw [(h.2.1 (by decide)).1]
  rfl

/-- C6: Exp and Log1p fail with the invalid-argument error exactly when the
output dtype is not a floating-point kind — the specific messages name the
operation — and they never raise it on floating outputs (no silent integer
computation). -/
theorem C6_exp_log1p_errors (f g : Rat → Rat) (t : MArray) (outD : Dtype) :
    ((∃ e, Exp.eval_cpu f t outD = .error e)
        ↔ is_floating_point outD = false)
    ∧ ((∃ e, Log1p.eval_cpu g t outD = .error e)
        ↔ is_floating_point outD = false)
    ∧ (is_floating_point outD = false →
        Exp.eval_cpu f t outD = .error
          "[exp] Cannot exponentiate elements in array with non floating point type."
        ∧ Log1p.eval_cpu g t outD = .error
          "[log1p] Cannot compute log of elements in array with non floating point type.") := by
  have hne : is_floating_point outD = false →
      (outD == Dtype.float32) = false := by
    intro hff
    cases outD <;> simp_all [is_floating_point]
  have hExpOk : is_floating_point outD = true →
      ∃ out, Exp.eval_cpu f t outD = .ok out := by
    intro hfl
    unfold Exp.eval_cpu
    by_cases h1 : (outD == Dtype.float32 && t.flags.contiguous) = true
    · rw [if_pos h1]
      exact ⟨_, rfl⟩
    · rw [if_neg h1, if_pos hfl]
      unfold unary_fp
      rw [if_pos hfl]
      exact ⟨_, rfl⟩
  have hExpErr : is_floating_point outD = false →
      Exp.eval_cpu f t outD = .error
        "[exp] Cannot exponentiate elements in array with non floating point type." := by
    intro hfl
    unfold Exp.eval_cpu
    rw [if_neg (by rw [hne hfl]; simp), if_neg (by rw [hfl]; simp)]
  have hLogOk : is_floating_point outD = true →
      ∃ out, Log1p.eval_cpu g t outD = .ok out := by
    intro hfl
    unfold Log1p.eval_cpu
    by_cases h1 : (outD == Dtype.float32 && t.flags.contiguous) = true
    · rw [if_pos h1]
      exact ⟨_, rfl⟩
    · rw [if_neg h1, if_pos hfl]
      unfold unary_fp
      rw [if_pos hfl]
      exact ⟨_, rfl⟩
  have hLogErr : is_floating_point outD = false →
      Log1p.eval_cpu g t outD = .error
        "[log1p] Cannot compute log of elements in array with non floating point type." := by
    intro hfl
    unfold Log1p.eval_cpu
    rw [if_neg (by rw [hne hfl]; simp), if_neg (by rw [hfl]; simp)]
  refine ⟨⟨?_, fun hfl => ⟨_, hExpErr hfl⟩⟩,
    ⟨?_, fun hfl => ⟨_, hLogErr hfl⟩⟩,
    fun hfl => ⟨hExpErr hfl, hLogErr hfl⟩⟩
  · rintro ⟨e, he⟩
    cases hfl : is_floating_point outD
    · rfl
    · obtain ⟨out, hout⟩ := hExpOk hfl
      rw [hout] at he
      exact Except.noConfusion he
  · rintro ⟨e, he⟩
    cases hfl : is_floating_point outD
    · rfl
    · obtain ⟨out, hout⟩ := hLogOk hfl
      rw [hout] at he
      exact Except.noConfusion he

theorem C6_witness :
    Exp.eval_cpu (fun x => x) tInt32 .int32 = .error
      "[exp] Cannot exponentiate elements in array with non floating point type."
    ∧ Log1p.eval_cpu (fun x => x) tInt32 .int32 = .error
      "[log1p] Cannot compute log of elements in array with non floating point type." :=
  (C6_exp_log1p_errors (fun x => x) (fun x => x) tInt32 .int32).2.2 (by decide)

/-- C8: AsType's vectorized fast path applies exactly to contiguous inputs
in the four dtype pairs float32→uint32, float32→int32, uint32→float32,
int32→float32, the float→int conversions truncating toward zero
(contiguous float32 [1.9, -2.9] to int32 gives [1, -2]); every other pair
and every non-contiguous input uses the generic element-wise cast. -/
theorem C8_astype (t : MArray) (outD : Dtype) :
    ((AsType.eval_cpu t outD).fast = true ↔
      (t.flags.contiguous = true ∧
        ((t.dtype = .float32 ∧ outD = .uint32) ∨
         (t.dtype = .float32 ∧ outD = .int32) ∨
         (t.dtype = .uint32 ∧ outD = .float32) ∨
         (t.dtype = .int32 ∧ outD = .float32))))
    ∧ ((AsType.eval_cpu t outD).fast = false →
        (AsType.eval_cpu t outD).out = AsType.eval t outD)
    ∧ q1p9 = 19/10 ∧ qm2p9 = -29/10
    ∧ (AsType.eval_cpu (mk1D .float32 [q1p9, qm2p9] 0 false)
        .int32).out.data = [1, -2] := by
  refine ⟨?_, ?_, ?_, ?_, by decide⟩
  · unfold AsType.eval_cpu
    split_ifs with h0 h1 h2 h3 h4 <;>
      simp_all [Bool.and_eq_true, beq_iff_eq]
  · unfold AsType.eval_cpu
    split_ifs <;> intro h <;> first | rfl | exact h.elim
  · rw [← Rat.num_div_den q1p9]
    norm_num [q1p9]
  · rw [← Rat.num_div_den qm2p9]
    norm_num [qm2p9]

/-- C3: Scan's fast path applies exactly to an exclusive Sum scan with
float32 output over a row-contiguous input whose scanned axis has unit
stride; every other combination delegates to the generic fallback; under
the fast condition the output buffer decomposes into
`count = size / stride` independent rows of length `stride = shape(axis)`,
position `r` of row `q` holding the exclusive forward prefix sum of row `q`
of the input (mirrored for reverse: the sum of the elements after `r`); on
input [1,2,3,4] the forward scan yields [0,1,3,6] and the reverse scan
[9,7,4,0]. -/
theorem C3_scan (rt : ReduceType) (axis : Nat) (reverse inclusive : Bool)
    (lae : Rat → Rat → Rat) (oi : Rat) (t : MArray) (outD : Dtype) :
    ((Scan.eval_cpu rt axis reverse inclusive lae oi t outD).fast = true ↔
      (rt = .Sum ∧ outD = .float32 ∧ t.flags.row_contiguous = true ∧
        t.strides.getD axis 0 = 1 ∧ inclusive = false))
    ∧ ((Scan.eval_cpu rt axis reverse inclusive lae oi t outD).fast
          = false →
        (Scan.eval_cpu rt axis reverse inclusive lae oi t outD).out
          = Scan.eval rt axis reverse inclusive lae oi t outD)
    ∧ (t.wf →
        (rt == ReduceType.Sum && outD == Dtype.float32 &&
          t.flags.row_contiguous && t.strides.getD axis 0 == 1 &&
          !inclusive) = true →
        (Scan.eval_cpu rt axis reverse inclusive lae oi t outD).out.data
          = scanChunks reverse (t.shape.getD axis 0)
              (t.size / t.shape.getD axis 0) t.data
        ∧ ∀ q r, q < t.size / t.shape.getD axis 0 →
            r < t.shape.getD axis 0 →
            (Scan.eval_cpu rt axis reverse inclusive lae oi t
                outD).out.data.getD (q * t.shape.getD axis 0 + r) 0
              = (if reverse then
                  (((t.data.drop (q * t.shape.getD axis 0)).take
                    (t.shape.getD axis 0)).drop (r + 1)).sum
                 else
                  (((t.data.drop (q * t.shape.getD axis 0)).take
                    (t.shape.getD axis 0)).take r).sum))
    ∧ (Scan.eval_cpu .Sum 0 false false (fun x _ => x) 0
        (mk1D .float32 [1, 2, 3, 4] 0 true) .float32).out.data
        = [0, 1, 3, 6]
    ∧ (Scan.eval_cpu .Sum 0 true false (fun x _ => x) 0
        (mk1D .float32 [1, 2, 3, 4] 0 true) .float32).out.data
        = [9, 7, 4, 0] := by
  refine ⟨?_, ?_, ?_, ?_, ?_⟩
  · unfold Scan.eval_cpu
    split_ifs with h
    · simp only [Bool.and_eq_true, beq_iff_eq, Bool.not_eq_true'] at h
      exact ⟨fun _ => ⟨h.1.1.1.1, h.1.1.1.2, h.1.1.2, h.1.2, h.2⟩,
        fun _ => rfl⟩
    · constructor
      · intro hft
        exact hft.elim
      · intro hcond
        exact absurd (show (rt == ReduceType.Sum && outD == Dtype.float32 &&
            t.flags.row_contiguous && t.strides.getD axis 0 == 1 &&
            !inclusive) = true by
          rw [hcond.1, hcond.2.1, hcond.2.2.1, hcond.2.2.2.1,
            hcond.2.2.2.2]
          rfl) h
  · unfold Scan.eval_cpu
    split_ifs with h
    · intro hft
      exact hft.elim
    · intro _
      rfl
  · intro hwf hc
    have hdata : (Scan.eval_cpu rt axis reverse inclusive lae oi t
        outD).out.data
        = scanChunks reverse (t.shape.getD axis 0)
            (t.size / t.shape.getD axis 0) t.data := by
      unfold Scan.eval_cpu
      rw [if_pos hc]
      rfl
    refine ⟨hdata, fun q r hq hr => ?_⟩
    rw [hdata]
    simp only [MArray.size] at hq ⊢
    have hLpos : 0 < t.shape.getD axis 0 :=
      Nat.lt_of_le_of_lt (Nat.zero_le _) hr
    simp only [Bool.and_eq_true, beq_iff_eq, Bool.not_eq_true'] at hc
    obtain ⟨⟨⟨⟨hrt, houtD⟩, hrc⟩, hstd⟩, hincl⟩ := hc
    have hstr : t.strides = rowMajorStrides t.shape := hwf.2.1 hrc
    have ha : axis < t.shape.length := by
      by_contra hcon
      push_neg at hcon
      have h0 : t.strides.getD axis 0 = 0 :=
        List.getD_eq_default _ _ (by rw [hwf.1]; omega)
      omega
    have hdvd : t.shape.getD axis 0 ∣ t.shape.prod := dvd_prod_getD ha
    have hcnt : t.shape.prod / t.shape.getD axis 0 * t.shape.getD axis 0
        = t.shape.prod := Nat.div_mul_cancel hdvd
    have hppos : 0 < t.shape.prod := by
      by_contra hp
      push_neg at hp
      have h0 : t.shape.prod = 0 := by omega
      rw [h0] at hq
      simp at hq
    have hdatalen : t.shape.prod ≤ t.data.length := by
      have hv := validIdx_multiIndex
        (s := t.shape) (i := t.shape.prod - 1) (by omega)
      have ho := offset_multiIndex
        (s := t.shape) (i := t.shape.prod - 1) (by omega)
      have hb := hwf.2.2.1 _ hv
      rw [hstr, ho] at hb
      omega
    have hlen : t.shape.getD axis 0
        * (t.shape.prod / t.shape.getD axis 0) ≤ t.data.length := by
      calc t.shape.getD axis 0 * (t.shape.prod / t.shape.getD axis 0)
          = t.shape.prod / t.shape.getD axis 0 * t.shape.getD axis 0 :=
            Nat.mul_comm _ _
        _ = t.shape.prod := hcnt
        _ ≤ t.data.length := hdatalen
    rw [scanChunks_getD reverse hLpos hq hlen hr]
    have hq1 : (q + 1) * t.shape.getD axis 0 ≤ t.shape.prod := by
      calc (q + 1) * t.shape.getD axis 0
          ≤ t.shape.prod / t.shape.getD axis 0 * t.shape.getD axis 0 :=
            Nat.mul_le_mul_right _ hq
        _ = t.shape.prod := hcnt
    have hrowlen : ((t.data.drop (q * t.shape.getD axis 0)).take
        (t.shape.getD axis 0)).length = t.shape.getD axis 0 := by
      simp only [List.length_take, List.length_drop]
      have hexp : (q + 1) * t.shape.getD axis 0
          = q * t.shape.getD axis 0 + t.shape.getD axis 0 := by ring
      omega
    cases reverse with
    | false =>
      rw [if_neg Bool.false_ne_true, if_neg Bool.false_ne_true]
      simp only [scanRowFwd]
      rw [hrowlen, getD_range_map _ hr, one_mul]
    | true =>
      rw [if_pos rfl, if_pos rfl]
      simp only [scanRowRev]
      rw [hrowlen, getD_range_map _ hr, one_mul]
  · show scanRowFwd 1 (([(1:Rat), 2, 3, 4]).take 4)
        ++ scanChunks false 4 0 (([(1:Rat), 2, 3, 4]).drop 4) = [0, 1, 3, 6]
    simp only [scanChunks, List.append_nil, scanRowFwd]
    norm_num [List.range_succ]
  · show scanRowRev 1 (([(1:Rat), 2, 3, 4]).take 4)
        ++ scanChunks true 4 0 (([(1:Rat), 2, 3, 4]).drop 4) = [9, 7, 4, 0]
    simp only [scanChunks, List.append_nil, scanRowRev]
    norm_num [List.range_succ]

theorem C3_witness :
    (mk1D .float32 [1, 2, 3, 4] 0 true).wf
    ∧ (Scan.eval_cpu .Sum 0 false false (fun x _ => x) 0
        (mk1D .float32 [1, 2, 3, 4] 0 true) .float32).fast = true
    ∧ (Scan.eval_cpu .Sum 0 false false (fun x _ => x) 0
        (mk1D .float32 [1, 2, 3, 4] 0 true) .float32).out.data
        = scanChunks false 4 1 (mk1D .float32 [1, 2, 3, 4] 0 true).data := by
  have hwf : (mk1D .float32 [1, 2, 3, 4] 0 true).wf :=
    mk1D_wf _ _ _ _ (fun q _ => valueOk_float32 q)
  have h := C3_scan .Sum 0 false false (fun x _ => x) 0
    (mk1D .float32 [1, 2, 3, 4] 0 true) .float32
  exact ⟨hwf, h.1.mpr ⟨rfl, rfl, rfl, rfl, rfl⟩,
    (h.2.2.1 hwf (by decide)).1⟩

/-- C7: the dtype dispatch follows the claim — `RemainderFn` is truncating
`%` on integral dtypes and `fmod` on floating ones, giving 7 % 3 = 1,
-7 % 3 = -1 and fmod(5.5, 2.0) = 1.5 on every path that reaches it — but on
dense float32 vectors the fast path calls `vvremainderf`, the IEEE
round-to-nearest remainder, producing -1/2 for 5.5 rem 2.0 where the same
operation's generic scalar function gives 3/2: the kernel contradicts the
fallback it is supposed to accelerate, so the claim's "fmod-convention for
every floating dtype" fails on the code. -/
theorem C7_remainder_bug :
    (Remainder.eval_cpu aRem bRem .float32).data = [-(1/2), 0]
    ∧ RemainderFn .float32 ((11:Rat)/2) 2 = 3/2
    ∧ (Remainder.eval_cpu (mk1D .float32 [(11:Rat)/2] 0 false)
        (mk1D .float32 [2] 1 false) .float32).data = [3/2]
    ∧ (Remainder.eval_cpu (mk1D .int32 [7] 0 false)
        (mk1D .int32 [3] 1 false) .int32).data = [1]
    ∧ (Remainder.eval_cpu (mk1D .int32 [-7] 0 false)
        (mk1D .int32 [3] 1 false) .int32).data = [-1]
    ∧ (∀ x y : Rat, RemainderFn .int32 x y = tmodQ x y)
    ∧ (∀ x y : Rat, RemainderFn .float32 x y = fmodQ x y) := by
  have hq : (11:Rat)/2/2 = 11/4 := by norm_num
  have hnum : ((11:Rat)/4).num = 11 := by norm_num
  have hden : ((11:Rat)/4).den = 4 := by norm_num
  have htr : ratTrunc ((11:Rat)/2/2) = 2 := by
    unfold ratTrunc
    rw [hq, hnum, hden]
    decide
  have hfmod : fmodQ ((11:Rat)/2) 2 = 3/2 := by
    unfold fmodQ
    rw [htr]
    norm_num
  have hfl : ratFloor ((11:Rat)/2/2) = 2 := by
    unfold ratFloor
    rw [hq, hnum, hden]
    decide
  have hround : roundEvenQ ((11:Rat)/2/2) = 3 := by
    unfold roundEvenQ
    rw [hfl, if_neg (by rw [hq]; norm_num), if_pos (by rw [hq]; norm_num)]
    decide
  have hieee : ieeeRemQ ((11:Rat)/2) 2 = -(1/2) := by
    unfold ieeeRemQ
    rw [hround]
    norm_num
  have hieee1 : ieeeRemQ (1:Rat) 1 = 0 := by
    have hq1 : (1:Rat)/1 = 1 := by norm_num
    have hfl1 : ratFloor ((1:Rat)/1) = 1 := by
      unfold ratFloor
      rw [hq1]
      decide
    have hr1 : roundEvenQ ((1:Rat)/1) = 1 := by
      unfold roundEvenQ
      rw [hfl1, if_pos (by rw [hq1]; norm_num)]
    unfold ieeeRemQ
    rw [hr1]
    norm_num
  have hRf : RemainderFn .float32 ((11:Rat)/2) 2 = 3/2 := hfmod
  refine ⟨?_, hRf, ?_, by decide, by decide, fun x y => rfl, fun x y => rfl⟩
  · have hbc : binCase aRem bRem = .vectorVector := by decide
    show (binary aRem bRem .float32 (RemainderFn .float32) none none
      (some fun x y => vvremainderf x y)).data = [-(1/2), 0]
    unfold binary
    rw [hbc]
    simp only [withLayout, vvremainderf, aRem, bRem, mk1D,
      List.zipWith_cons_cons, List.zipWith_nil_right]
    rw [hieee, hieee1]
  · have hbc : binCase (mk1D .float32 [(11:Rat)/2] 0 false)
        (mk1D .float32 [2] 1 false) = .scalarVector := by decide
    show (binary (mk1D .float32 [(11:Rat)/2] 0 false)
      (mk1D .float32 [2] 1 false) .float32 (RemainderFn .float32) none none
      (some fun x y => vvremainderf x y)).data = [3/2]
    unfold binary
    rw [hbc]
    simp only [withLayout, mk1D, List.map_cons, List.map_nil,
      List.getD_cons_zero]
    rw [hRf]

/-- C1 counterexample: for Exp on an int32 contiguous input, the fast-path
dtype/layout condition fails and the CPU backend raises an invalid-argument
error instead of selecting a generic fallback, refuting the claim's "the
generic fallback is selected (never an error)". -/
theorem C1_counterexample :
    evalCpu (.expOp (fun x => x)) [mk1D .int32 [1] 0 false] .int32
      = Except.error
        "[exp] Cannot exponentiate elements in array with non floating point type."
    ∧ ((Dtype.int32 == Dtype.float32
        && (mk1D .int32 [1] 0 false).flags.contiguous) = false) :=
  ⟨rfl, rfl⟩

/-- C1 (amended): on well-formed inputs the optimized CPU backend and the
backend-agnostic generic evaluation have the same outcome — the same values
at every valid logical index when both succeed, and failure exactly
together — where the only errors at matching arity are the documented
invalid-dtype errors of Exp/Log1p on non-floating outputs (raised
identically by the generic path, hence never a silent integer fallback),
and the single excluded input family is Remainder's float32 vector-vector
kernel, a code bug analysed with the Remainder claim. -/
theorem C1_fallback_equivalence (op : CpuOp) (inputs : List MArray)
    (outD : Dtype) (hwf : inputsWf inputs)
    (hker : remainderKernelHit op inputs = false) :
    sameResult (evalCpu op inputs outD) (evalGeneric op inputs outD)
    ∧ ∀ e, evalCpu op inputs outD = .error e →
        (∃ n, arity op = some n ∧ inputs.length ≠ n) ∨
        (isFpRestricted op = true ∧ is_floating_point outD = false) :=
  evalCpu_refines_generic op inputs outD hwf hker

theorem C1_witness :
    inputsWf [aAdd, bAdd]
    ∧ remainderKernelHit .add [aAdd, bAdd] = false
    ∧ sameResult (evalCpu .add [aAdd, bAdd] .float32)
        (evalGeneric .add [aAdd, bAdd] .float32) := by
  have hwf : inputsWf [aAdd, bAdd] := by
    refine ⟨mk1D_wf _ _ _ _ (fun q _ => valueOk_float32 q), ?_⟩
    intro b hb
    simp only [List.mem_singleton] at hb
    subst hb
    exact ⟨mk1D_wf _ _ _ _ (fun q _ => valueOk_float32 q), rfl⟩
  exact ⟨hwf, rfl,
    (C1_fallback_equivalence .add [aAdd, bAdd] .float32 hwf rfl).1⟩

theorem C8_witness :
    (AsType.eval_cpu (mk1D .float32 [q1p9, qm2p9] 0 false) .int32).fast
        = true
    ∧ (mk1D .float32 [q1p9, qm2p9] 0 false).flags.contiguous = true :=
  ⟨(C8_astype (mk1D .float32 [q1p9, qm2p9] 0 false) .int32).1.mpr
      ⟨rfl, Or.inr (Or.inl ⟨rfl, rfl⟩)⟩,
    rfl⟩

end MLX
